import Mathlib

/-!
# RC4 (`rc4.go`): a shallow embedding and its verified properties

Machine integers are natural numbers with explicit reduction: `uint8` values are
taken `% 256`, `uint32` values `% 4294967296`.  The `[256]uint32` table of
`rc4Cipher` is a list of naturals, read with `getD` and written with `set`; every
index the code uses is a `uint8`, hence below 256.  Byte slices are
(pointer, length, capacity) triples over a byte-addressed memory, so that the
aliasing checks of `XORKeyStream` can be stated; addresses are naturals, and a
slice lies inside the address space, so address arithmetic does not wrap.  A Go
panic is an outcome of its own, carrying the cipher and the memory as they are when
the panic is raised.
-/

namespace RC4

/-! ## Data model -/

/-- The struct `rc4Cipher`: the table `s [256]uint32` and the indices `i, j uint8`. -/
structure rc4Cipher where
  s : List Nat
  i : Nat
  j : Nat
deriving DecidableEq

/-- The type `KeySizeError int`: the offending key length. -/
structure KeySizeError where
  k : Int
deriving DecidableEq

/-- Byte-addressed memory: the byte stored at each address. -/
abbrev Mem := Nat → Nat

/-- A Go `[]byte` header: address of element 0, length and capacity. -/
structure Slice where
  ptr : Nat
  len : Nat
  cap : Nat
deriving DecidableEq

/-- The store `mem[a] = v`. -/
def Mem.write (mem : Mem) (a v : Nat) : Mem :=
  fun x => if x = a then v else mem x

/-- The `n` bytes of memory from address `p` on, in order. -/
def Mem.bytes (mem : Mem) (p n : Nat) : List Nat :=
  (List.range n).map (fun k => mem (p + k))

/-- The contents of a slice: its `len` bytes. -/
def Slice.bytes (x : Slice) (mem : Mem) : List Nat :=
  mem.bytes x.ptr x.len

/-- The slice expression `x[:n]` for `n ≤ cap(x)`: same start, length `n`. -/
def Slice.upTo (x : Slice) (n : Nat) : Slice :=
  { ptr := x.ptr, len := n, cap := x.cap }

/-- How a call that may panic ends: normally, or with a panic message; both carry
the cipher and the memory at that moment. -/
inductive Outcome where
  | done (c : rc4Cipher) (mem : Mem)
  | panicked (msg : String) (c : rc4Cipher) (mem : Mem)

/-- The cipher at the end of a call (at the panic, when it panics). -/
def Outcome.cipher : Outcome → rc4Cipher
  | .done c _ => c
  | .panicked _ c _ => c

/-- The memory at the end of a call (at the panic, when it panics). -/
def Outcome.mem : Outcome → Mem
  | .done _ m => m
  | .panicked _ _ m => m

/-- Whether the call ended in a panic. -/
def Outcome.isPanic : Outcome → Bool
  | .done _ _ => false
  | .panicked _ _ _ => true

/-! ## Error type (`KeySizeError`) -/

/-- The decimal digits of `n`, most significant first, computed with `fuel` rounds
of division by 10. -/
def decimalDigits : Nat → Nat → List Nat
  | 0, _ => []
  | fuel + 1, n => if n < 10 then [n] else decimalDigits fuel (n / 10) ++ [n % 10]

/-- Modelled from the spec: the standard-library function `strconv.Itoa`, which is
not part of the repository: the decimal rendering of an integer, a minus sign
before the digits of a negative one. -/
def Itoa (n : Int) : String :=
  (if n < 0 then "-" else "") ++
    String.mk ((decimalDigits (n.natAbs + 1) n.natAbs).map Nat.digitChar)

/-- The method `Error` of `KeySizeError`:
`"crypto/rc4: invalid key size " + strconv.Itoa(int(k))`. -/
def KeySizeError.Error (k : KeySizeError) : String :=
  "crypto/rc4: invalid key size " ++ Itoa k.k

/-! ## Key schedule (`NewCipher`) -/

/-- The first loop of `NewCipher`: `c.s[i] = uint32(i)` for `i = 0 .. 255`, run on
the zero-valued table of `var c rc4Cipher`. -/
def initTable : List Nat :=
  (List.range 256).foldl (fun s i => s.set i (i % 4294967296)) (List.replicate 256 0)

/-- The body of the second loop of `NewCipher` at index `i`, on the table and the
`uint8` accumulator `j`:
`j += uint8(c.s[i]) + key[i%k]; c.s[i], c.s[j] = c.s[j], c.s[i]`. -/
def ksaStep (key : List Nat) (st : List Nat × Nat) (i : Nat) : List Nat × Nat :=
  let s := st.1
  let j := (st.2 + (s.getD i 0 % 256 + key.getD (i % key.length) 0) % 256) % 256
  let sj := s.getD j 0
  let si := s.getD i 0
  ((s.set i sj).set j si, j)

/-- The second loop of `NewCipher`: `for i := 0; i < 256; i++`, from `j = 0`. -/
@[irreducible]
def ksaLoop (key : List Nat) (s : List Nat) : List Nat × Nat :=
  (List.range 256).foldl (ksaStep key) (s, 0)

/-- The function `NewCipher`: a key of 1 to 256 bytes gives a scheduled cipher, any
other length the error `KeySizeError(len(key))`. -/
def NewCipher (key : List Nat) : Except KeySizeError rc4Cipher :=
  let k := key.length
  if k < 1 ∨ k > 256 then
    .error ⟨(k : Int)⟩
  else
    .ok { s := (ksaLoop key initTable).1, i := 0, j := 0 }

/-- The method `Reset`: every table entry and both indices become 0. -/
def Reset (c : rc4Cipher) : rc4Cipher :=
  { s := (List.range c.s.length).foldl (fun s i => s.set i 0) c.s, i := 0, j := 0 }

/-! ## Overlap guard -/

/-- The function `anyOverlap`: both slices non-empty, and the first address of each
is not above the last address of the other. -/
def anyOverlap (x y : Slice) : Bool :=
  decide (x.len > 0) && decide (y.len > 0) &&
    decide (x.ptr ≤ y.ptr + (y.len - 1)) &&
    decide (y.ptr ≤ x.ptr + (x.len - 1))

/-- The function `inexactOverlap`: false when either slice is empty or both start
at the same address, otherwise `anyOverlap`. -/
def inexactOverlap (x y : Slice) : Bool :=
  if x.len = 0 ∨ y.len = 0 ∨ x.ptr = y.ptr then false
  else anyOverlap x y

/-! ## Keystream (`XORKeyStream`) -/

/-- The loop body of `XORKeyStream` on the table, the local `i`, `j` and the source
byte `v`: returns the new table, `i`, `j` and the byte stored into `dst[k]`. -/
def xorStep (s : List Nat) (i j v : Nat) : List Nat × Nat × Nat × Nat :=
  let i := (i + 1) % 256
  let x := s.getD i 0
  let j := (j + x % 256) % 256
  let y := s.getD j 0
  let s := (s.set i y).set j x
  (s, i, j, v ^^^ (s.getD ((x + y) % 4294967296 % 256) 0 % 256))

/-- The variables the loop of `XORKeyStream` updates: the table `c.s`, the locals
`i`, `j`, and memory. -/
structure LoopState where
  s : List Nat
  i : Nat
  j : Nat
  mem : Mem

/-- Iteration `k` of `for k, v := range src`: read `v = src[k]`, run the body,
store `dst[k]`. -/
def loopBody (dst src : Slice) (st : LoopState) (k : Nat) : LoopState :=
  let v := st.mem (src.ptr + k)
  let r := xorStep st.s st.i st.j v
  { s := r.1, i := r.2.1, j := r.2.2.1, mem := st.mem.write (dst.ptr + k) r.2.2.2 }

/-- The first `n` iterations of the loop of `XORKeyStream`. -/
def loopN (dst src : Slice) (st : LoopState) (n : Nat) : LoopState :=
  (List.range n).foldl (loopBody dst src) st

/-- The method `XORKeyStream(dst, src)`.  An empty `src` returns at once.  The
slicing `dst[:len(src)]` panics when `len(src) > cap(dst)`; the overlap guard
panics on the resliced destination; `dst[len(src)-1]` panics when that index is
not below `len(dst)`; then the loop runs over `src` and `c.i, c.j` are stored. -/
def XORKeyStream (c : rc4Cipher) (mem : Mem) (dst src : Slice) : Outcome :=
  if src.len = 0 then
    .done c mem
  else if src.len > dst.cap then
    .panicked "slice bounds out of range" c mem
  else if inexactOverlap (dst.upTo src.len) src then
    .panicked "crypto/rc4: invalid buffer overlap" c mem
  else if ¬ (src.len - 1 < dst.len) then
    .panicked "index out of range" c mem
  else
    let st := loopN dst src { s := c.s, i := c.i, j := c.j, mem := mem } src.len
    .done { s := st.s, i := st.i, j := st.j } st.mem

/-- The method `Encrypt`: a call of `XORKeyStream`. -/
def Encrypt (c : rc4Cipher) (mem : Mem) (dst src : Slice) : Outcome :=
  XORKeyStream c mem dst src

/-- The method `Decrypt`: a call of `XORKeyStream`. -/
def Decrypt (c : rc4Cipher) (mem : Mem) (dst src : Slice) : Outcome :=
  XORKeyStream c mem dst src

/-- A call of one of the methods `XORKeyStream`, `Encrypt`, `Decrypt`, `Reset`. -/
inductive Op where
  | xorKeyStream (dst src : Slice)
  | encrypt (dst src : Slice)
  | decrypt (dst src : Slice)
  | reset
deriving DecidableEq

/-- The cipher and the memory after one call; when the call panics they are those
at the panic. -/
def Op.apply (c : rc4Cipher) (mem : Mem) : Op → rc4Cipher × Mem
  | .xorKeyStream dst src => ((XORKeyStream c mem dst src).cipher, (XORKeyStream c mem dst src).mem)
  | .encrypt dst src => ((Encrypt c mem dst src).cipher, (Encrypt c mem dst src).mem)
  | .decrypt dst src => ((Decrypt c mem dst src).cipher, (Decrypt c mem dst src).mem)
  | .reset => (Reset c, mem)

/-- The cipher and the memory after a sequence of calls, in order. -/
def runOps (c : rc4Cipher) (mem : Mem) : List Op → rc4Cipher × Mem
  | [] => (c, mem)
  | op :: ops => runOps (op.apply c mem).1 (op.apply c mem).2 ops

/-- What a run of successive `XORKeyStream` calls on one cipher leaves: the final
cipher and memory, the source bytes of the calls (each source as its call finds
it) in order, the bytes the calls store (the first `len(src)` bytes of each
destination, read right after its call) in order, and whether a call panicked. -/
structure CallsResult where
  cipher : rc4Cipher
  mem : Mem
  input : List Nat
  output : List Nat
  panicked : Bool

/-- Successive calls `c.XORKeyStream(dst, src)`, one per pair `(dst, src)`. -/
def xorCalls (c : rc4Cipher) (mem : Mem) : List (Slice × Slice) → CallsResult
  | [] => { cipher := c, mem := mem, input := [], output := [], panicked := false }
  | (dst, src) :: rest =>
    let r := XORKeyStream c mem dst src
    let t := xorCalls r.cipher r.mem rest
    { cipher := t.cipher, mem := t.mem,
      input := src.bytes mem ++ t.input,
      output := r.mem.bytes dst.ptr src.len ++ t.output,
      panicked := r.isPanic || t.panicked }

/-- Successive calls `c.XORKeyStream(dst, src)`, one per pair `(dst, src)`, call by
call: the source bytes each call finds, with the bytes it stores (the first
`len(src)` bytes of its destination, read right after the call). -/
def callTrace (c : rc4Cipher) (mem : Mem) : List (Slice × Slice) → List (List Nat × List Nat)
  | [] => []
  | (dst, src) :: rest =>
    let r := XORKeyStream c mem dst src
    (src.bytes mem, r.mem.bytes dst.ptr src.len) :: callTrace r.cipher r.mem rest

/-! ## The keystream on byte sequences -/

/-- The loop of `XORKeyStream` on a source given by its bytes: the final cipher and
the bytes stored, in order. -/
def xorBytes (c : rc4Cipher) : List Nat → rc4Cipher × List Nat
  | [] => (c, [])
  | v :: vs =>
    let r := xorStep c.s c.i c.j v
    let rest := xorBytes { s := r.1, i := r.2.1, j := r.2.2.1 } vs
    (rest.1, r.2.2.2 :: rest.2)

/-- The bytes of the key `"SECRET"` of `TestRC4`. -/
def secretKey : List Nat := [83, 69, 67, 82, 69, 84]

/-- The bytes of the input `"This is a test"` of `TestRC4`. -/
def testInput : List Nat := [84, 104, 105, 115, 32, 105, 115, 32, 97, 32, 116, 101, 115, 116]

/-- The bytes `expect` of `TestRC4`. -/
def testExpect : List Nat := [200, 6, 5, 12, 47, 73, 80, 232, 131, 70, 200, 214, 18, 118]

/-! ## Vocabulary of the statements -/

/-- Memory after storing the bytes `out` from address `p` on. -/
def Mem.writeBytes (mem : Mem) (p : Nat) (out : List Nat) : Mem :=
  fun a => if p ≤ a ∧ a < p + out.length then out.getD (a - p) 0 else mem a

/-- The first `n` addresses from `p` and the first `n` addresses from `q` have no
address in common. -/
def RangesDisjoint (p q n : Nat) : Prop :=
  p + n ≤ q ∨ q + n ≤ p

instance (p q n : Nat) : Decidable (RangesDisjoint p q n) := by
  unfold RangesDisjoint; infer_instance

/-- A destination that can take the output for `src` in a disjoint buffer: at least
as long as `src`, within its capacity, and its first `len(src)` bytes share no
address with `src`. -/
def DisjointBuffers (dst src : Slice) : Prop :=
  src.len ≤ dst.len ∧ dst.len ≤ dst.cap ∧ RangesDisjoint dst.ptr src.ptr src.len

instance (dst src : Slice) : Decidable (DisjointBuffers dst src) := by
  unfold DisjointBuffers; infer_instance

/-- A destination `XORKeyStream` accepts for `src`: at least as long as `src`, within
its capacity, and either starting where `src` starts or sharing no address with
`src` over its first `len(src)` bytes. -/
def AcceptedBuffers (dst src : Slice) : Prop :=
  src.len ≤ dst.len ∧ dst.len ≤ dst.cap ∧
    (dst.ptr = src.ptr ∨ RangesDisjoint dst.ptr src.ptr src.len)

instance (dst src : Slice) : Decidable (AcceptedBuffers dst src) := by
  unfold AcceptedBuffers; infer_instance

/-- The table holds every value 0..255 exactly once in its 256 entries: it is a
bijection on {0, ..., 255}. -/
def IsPermutation (s : List Nat) : Prop :=
  s.length = 256 ∧ ∀ v, v < 256 → s.count v = 1

/-- The slices `x` and `y` overlap partially: they do not begin at the same
address, and some address belongs to both. -/
def PartialOverlap (x y : Slice) : Prop :=
  x.ptr ≠ y.ptr ∧
    ∃ a, (x.ptr ≤ a ∧ a < x.ptr + x.len) ∧ (y.ptr ≤ a ∧ a < y.ptr + y.len)

/-- The cipher `NewCipher` returns for the key "SECRET". -/
def secretCipher : rc4Cipher :=
  { s := (ksaLoop secretKey initTable).1, i := 0, j := 0 }

/-- Exchange of the entries at positions `a` and `b` of a table. -/
def swapEntries (t : List Nat) (a b : Nat) : List Nat :=
  (t.set a (t.getD b 0)).set b (t.getD a 0)

/-- The reference key schedule, in the words of the specification: start from
`table[n] = n` for `n` in 0..255; then for `n = 0..255` in order, with an
accumulator `acc` starting at 0, set
`acc = (acc + table[n] + key[n mod k]) mod 256` and swap `table[n]` with
`table[acc]`. -/
@[irreducible]
def refKSA (key : List Nat) : List Nat :=
  ((List.range 256).foldl
    (fun (st : List Nat × Nat) n =>
      let acc := (st.2 + st.1.getD n 0 + key.getD (n % key.length) 0) % 256
      (swapEntries st.1 n acc, acc))
    (List.range 256, 0)).1

/-- The reference keystream step, in the words of the specification:
`i = (i+1) mod 256; x = table[i]; j = (j + x) mod 256; y = table[j]`; swap
`table[i]` and `table[j]`; the output byte is the source byte XOR
`table[(x + y) mod 256]`, read from the table after the swap. -/
def refStep (t : List Nat) (i j v : Nat) : List Nat × Nat × Nat × Nat :=
  let i := (i + 1) % 256
  let x := t.getD i 0
  let j := (j + x) % 256
  let y := t.getD j 0
  let t := swapEntries t i j
  (t, i, j, v ^^^ t.getD ((x + y) % 256) 0)

/-- The reference keystream: `refStep` once per source byte, from left to right;
the final cipher and the output bytes. -/
def refPRGA (c : rc4Cipher) : List Nat → rc4Cipher × List Nat
  | [] => (c, [])
  | v :: vs =>
    let r := refStep c.s c.i c.j v
    let rest := refPRGA { s := r.1, i := r.2.1, j := r.2.2.1 } vs
    (rest.1, r.2.2.2 :: rest.2)

/-- The key `key` written `m` times in a row. -/
def repeatKey (key : List Nat) (m : Nat) : List Nat :=
  (List.replicate m key).flatten

/-- The number a list of decimal digits, most significant first, stands for. -/
def decimalValue (ds : List Nat) : Nat :=
  ds.foldl (fun acc d => 10 * acc + d) 0

/-- The states a cipher can be in once `Reset` has run: the table holds 256 zeros,
`j` is 0 and `i` is a `uint8`. -/
def Cleared (s : List Nat) (i j : Nat) : Prop :=
  (s.length = 256 ∧ ∀ b ∈ s, b = 0) ∧ i < 256 ∧ j = 0

/-! ## Auxiliary lemmas: memory -/

theorem Mem.bytes_length (mem : Mem) (p n : Nat) : (mem.bytes p n).length = n := by
  simp [Mem.bytes]

theorem Mem.bytes_succ (mem : Mem) (p n : Nat) :
    mem.bytes p (n + 1) = mem.bytes p n ++ [mem (p + n)] := by
  simp [Mem.bytes, List.range_succ]

theorem Mem.bytes_congr (m₁ m₂ : Mem) (p n : Nat)
    (h : ∀ k, k < n → m₁ (p + k) = m₂ (p + k)) : m₁.bytes p n = m₂.bytes p n := by
  unfold Mem.bytes
  apply List.map_congr_left
  intro k hk
  exact h k (List.mem_range.mp hk)

theorem Mem.writeBytes_nil (mem : Mem) (p : Nat) : mem.writeBytes p [] = mem := by
  funext a
  simp [Mem.writeBytes]

theorem Mem.writeBytes_snoc (mem : Mem) (p : Nat) (out : List Nat) (b : Nat) :
    (mem.writeBytes p out).write (p + out.length) b = mem.writeBytes p (out ++ [b]) := by
  funext a
  unfold Mem.write Mem.writeBytes
  by_cases h1 : a = p + out.length
  · subst h1
    simp [List.getD_eq_getElem?_getD]
  · by_cases h2 : p ≤ a ∧ a < p + out.length
    · have h3 : a - p < out.length := by omega
      have h4 : p ≤ a ∧ a < p + (out ++ [b]).length := by simp; omega
      simp only [h1, h2, h4, if_true, if_false, and_self]
      simp [List.getD_eq_getElem?_getD, List.getElem?_append_left h3]
    · have h4 : ¬ (p ≤ a ∧ a < p + (out ++ [b]).length) := by simp; omega
      simp only [h1, h2, h4, if_false]

theorem Mem.writeBytes_outside (mem : Mem) (p : Nat) (out : List Nat) (a : Nat)
    (h : a < p ∨ p + out.length ≤ a) : mem.writeBytes p out a = mem a := by
  unfold Mem.writeBytes
  have : ¬ (p ≤ a ∧ a < p + out.length) := by omega
  simp [this]

theorem Mem.bytes_writeBytes (mem : Mem) (p : Nat) (out : List Nat) :
    (mem.writeBytes p out).bytes p out.length = out := by
  apply List.ext_getElem
  · simp [Mem.bytes]
  · intro k h1 h2
    simp [Mem.bytes, Mem.writeBytes, h2, List.getD_eq_getElem?_getD]

/-! ## Auxiliary lemmas: the loop of `XORKeyStream` -/

theorem loopN_succ (dst src : Slice) (st : LoopState) (n : Nat) :
    loopN dst src st (n + 1) = loopBody dst src (loopN dst src st n) n := by
  simp [loopN, List.range_succ, List.foldl_append]

theorem xorBytes_append (c : rc4Cipher) (a b : List Nat) :
    xorBytes c (a ++ b) =
      ((xorBytes (xorBytes c a).1 b).1, (xorBytes c a).2 ++ (xorBytes (xorBytes c a).1 b).2) := by
  induction a generalizing c with
  | nil => simp [xorBytes]
  | cons v vs ih => simp [xorBytes, ih]

theorem xorBytes_length (c : rc4Cipher) (p : List Nat) : (xorBytes c p).2.length = p.length := by
  induction p generalizing c with
  | nil => simp [xorBytes]
  | cons v vs ih => simp [xorBytes, ih]

theorem loopN_eq (c : rc4Cipher) (mem : Mem) (dst src : Slice)
    (hov : dst.ptr = src.ptr ∨ RangesDisjoint dst.ptr src.ptr src.len)
    (n : Nat) (hn : n ≤ src.len) :
    (loopN dst src { s := c.s, i := c.i, j := c.j, mem := mem } n).s
        = (xorBytes c (mem.bytes src.ptr n)).1.s ∧
    (loopN dst src { s := c.s, i := c.i, j := c.j, mem := mem } n).i
        = (xorBytes c (mem.bytes src.ptr n)).1.i ∧
    (loopN dst src { s := c.s, i := c.i, j := c.j, mem := mem } n).j
        = (xorBytes c (mem.bytes src.ptr n)).1.j ∧
    (loopN dst src { s := c.s, i := c.i, j := c.j, mem := mem } n).mem
        = mem.writeBytes dst.ptr (xorBytes c (mem.bytes src.ptr n)).2 := by
  induction n with
  | zero => simp [loopN, Mem.bytes, xorBytes, Mem.writeBytes_nil]
  | succ n ih =>
    obtain ⟨hs, hi, hj, hm⟩ := ih (by omega)
    have hlen : (xorBytes c (mem.bytes src.ptr n)).2.length = n := by
      rw [xorBytes_length, Mem.bytes_length]
    have hv : (loopN dst src { s := c.s, i := c.i, j := c.j, mem := mem } n).mem (src.ptr + n)
        = mem (src.ptr + n) := by
      rw [hm]
      apply Mem.writeBytes_outside
      rw [hlen]
      unfold RangesDisjoint at hov
      omega
    rw [loopN_succ, Mem.bytes_succ, xorBytes_append]
    simp only [loopBody, xorBytes, hv, hs, hi, hj, hm]
    refine ⟨trivial, trivial, trivial, ?_⟩
    have := Mem.writeBytes_snoc mem dst.ptr (xorBytes c (mem.bytes src.ptr n)).2
    rw [hlen] at this
    rw [this]

/-- On buffers it accepts, `XORKeyStream` ends normally, with the cipher and the
stored bytes that the loop gives on the bytes of `src`. -/
theorem XORKeyStream_eq (c : rc4Cipher) (mem : Mem) (dst src : Slice)
    (hb : AcceptedBuffers dst src) :
    XORKeyStream c mem dst src =
      .done (xorBytes c (src.bytes mem)).1
        (mem.writeBytes dst.ptr (xorBytes c (src.bytes mem)).2) := by
  obtain ⟨hl, hc, hov⟩ := hb
  by_cases h0 : src.len = 0
  · simp [XORKeyStream, h0, Slice.bytes, Mem.bytes, xorBytes, Mem.writeBytes_nil]
  obtain ⟨hs, hi, hj, hm⟩ := loopN_eq c mem dst src hov src.len (le_refl _)
  have hg : inexactOverlap (dst.upTo src.len) src = false := by
    unfold inexactOverlap anyOverlap Slice.upTo
    unfold RangesDisjoint at hov
    by_cases hp : dst.ptr = src.ptr
    · simp [hp]
    · simp [h0, hp]
      intro _ h2
      omega
  unfold XORKeyStream
  have h1 : ¬ src.len > dst.cap := by omega
  have h2 : src.len - 1 < dst.len := by omega
  simp only [h0, h1, hg, h2, if_false, not_true_eq_false, Bool.false_eq_true]
  simp only [Slice.bytes, hs, hi, hj, hm]

theorem AcceptedBuffers.of_disjoint {dst src : Slice} (h : DisjointBuffers dst src) :
    AcceptedBuffers dst src :=
  ⟨h.1, h.2.1, Or.inr h.2.2⟩

/-- The bytes a call has stored, read back from the destination. -/
theorem Mem.bytes_writeBytes_of_length (mem : Mem) (p n : Nat) (out : List Nat)
    (h : out.length = n) : (mem.writeBytes p out).bytes p n = out := by
  subst h
  exact Mem.bytes_writeBytes mem p out

/-- Running the loop on its own output from the same cipher gives back the input:
the keystream does not depend on the data, and XOR with it is an involution. -/
theorem xorBytes_xorBytes (c : rc4Cipher) (p : List Nat) :
    xorBytes c (xorBytes c p).2 = ((xorBytes c p).1, p) := by
  induction p generalizing c with
  | nil => simp [xorBytes]
  | cons v vs ih =>
    simp only [xorBytes]
    have h1 : ∀ w, (xorStep c.s c.i c.j w).1 = (xorStep c.s c.i c.j v).1 := fun _ => rfl
    have h2 : ∀ w, (xorStep c.s c.i c.j w).2.1 = (xorStep c.s c.i c.j v).2.1 := fun _ => rfl
    have h3 : ∀ w, (xorStep c.s c.i c.j w).2.2.1 = (xorStep c.s c.i c.j v).2.2.1 := fun _ => rfl
    rw [h1, h2, h3, ih]
    simp [xorStep, Nat.xor_cancel_right]

/-- Successive accepted calls amount to the loop run once on all their inputs. -/
theorem xorCalls_eq (calls : List (Slice × Slice)) (c : rc4Cipher) (mem : Mem)
    (h : ∀ p ∈ calls, AcceptedBuffers p.1 p.2) :
    (xorCalls c mem calls).panicked = false ∧
    (xorCalls c mem calls).cipher = (xorBytes c (xorCalls c mem calls).input).1 ∧
    (xorCalls c mem calls).output = (xorBytes c (xorCalls c mem calls).input).2 := by
  induction calls generalizing c mem with
  | nil => exact ⟨rfl, rfl, rfl⟩
  | cons p rest ih =>
    obtain ⟨dst, src⟩ := p
    have hp : AcceptedBuffers dst src := h (dst, src) (List.mem_cons_self _ _)
    have e := XORKeyStream_eq c mem dst src hp
    obtain ⟨h₁, h₂, h₃⟩ := ih (XORKeyStream c mem dst src).cipher (XORKeyStream c mem dst src).mem
      (fun q hq => h q (List.mem_cons_of_mem _ hq))
    have hout : (XORKeyStream c mem dst src).mem.bytes dst.ptr src.len
        = (xorBytes c (src.bytes mem)).2 := by
      rw [e]
      apply Mem.bytes_writeBytes_of_length
      rw [xorBytes_length, Slice.bytes, Mem.bytes_length]
    have hcip : (XORKeyStream c mem dst src).cipher = (xorBytes c (src.bytes mem)).1 := by
      rw [e]; rfl
    have hpan : (XORKeyStream c mem dst src).isPanic = false := by
      rw [e]; rfl
    simp only [xorCalls, xorBytes_append, hpan, h₁, hout, Bool.or_self]
    refine ⟨trivial, ?_, ?_⟩
    · rw [h₂, hcip]
    · rw [h₃, hcip]

/-- The keys and texts of `TestRC4` are the character codes of its string literals. -/
theorem test_strings :
    secretKey = "SECRET".toList.map Char.toNat ∧
    testInput = "This is a test".toList.map Char.toNat := by
  decide

/-! ## Auxiliary lemmas: tables -/

theorem swap_perm (s : List Nat) (i j : Nat) (hi : i < s.length) (hj : j < s.length) :
    ((s.set i (s.getD j 0)).set j (s.getD i 0)).Perm s := by
  rw [List.perm_iff_count]
  intro b
  have hj' : j < (s.set i (s.getD j 0)).length := by simpa using hj
  rw [List.count_set _ _ _ _ hj', List.count_set _ _ _ _ hi, List.getElem_set]
  have e1 : s.getD i 0 = s[i] := List.getD_eq_getElem _ _ hi
  have e2 : s.getD j 0 = s[j] := List.getD_eq_getElem _ _ hj
  simp only [e1, e2]
  have c1 : s[i] = b → 0 < s.count b := fun h => List.count_pos_iff.mpr (h ▸ List.getElem_mem hi)
  have c2 : s[j] = b → 0 < s.count b := fun h => List.count_pos_iff.mpr (h ▸ List.getElem_mem hj)
  by_cases hij : i = j
  · subst hij
    simp only [if_true, beq_iff_eq]
    split_ifs <;> omega
  · simp only [hij, if_false, beq_iff_eq]
    split_ifs <;> omega

theorem IsPermutation.of_perm {s t : List Nat} (h : s.Perm t) (ht : IsPermutation t) :
    IsPermutation s :=
  ⟨h.length_eq.trans ht.1, fun v hv => (h.count_eq v).trans (ht.2 v hv)⟩

theorem IsPermutation.swap {s : List Nat} (h : IsPermutation s) (i j : Nat)
    (hi : i < 256) (hj : j < 256) :
    IsPermutation ((s.set i (s.getD j 0)).set j (s.getD i 0)) :=
  IsPermutation.of_perm (swap_perm s i j (h.1 ▸ hi) (h.1 ▸ hj)) h

theorem isPermutation_range : IsPermutation (List.range 256) :=
  ⟨List.length_range 256, fun _ hv =>
    List.count_eq_one_of_mem (List.nodup_range 256) (List.mem_range.mpr hv)⟩

/-- A table that holds each of 0..255 once in 256 entries holds nothing else. -/
theorem IsPermutation.lt {s : List Nat} (h : IsPermutation s) : ∀ x ∈ s, x < 256 := by
  have hperm : (s.filter (fun x => decide (x < 256))).Perm (List.range 256) := by
    rw [List.perm_iff_count]
    intro a
    by_cases ha : a < 256
    · rw [List.count_filter (by simpa using ha), h.2 a ha, isPermutation_range.2 a ha]
    · have h1 : (s.filter (fun x => decide (x < 256))).count a = 0 := by
        rw [List.count_eq_zero]
        intro hm
        exact ha (by simpa using (List.mem_filter.mp hm).2)
      have h2 : (List.range 256).count a = 0 := by
        rw [List.count_eq_zero, List.mem_range]
        exact ha
      rw [h1, h2]
  have hlen : (s.filter (fun x => decide (x < 256))).length = s.length := by
    rw [hperm.length_eq, List.length_range, h.1]
  intro x hx
  simpa using (List.filter_length_eq_length.mp hlen) x hx

theorem initTable_eq : initTable = List.range 256 := by
  decide!

theorem foldl_invariant {α β : Type} (P : α → Prop) (f : α → β → α) (l : List β)
    (h : ∀ a, ∀ b ∈ l, P a → P (f a b)) (a : α) (ha : P a) : P (l.foldl f a) := by
  induction l generalizing a with
  | nil => exact ha
  | cons b bs ih =>
    exact ih (fun a' b' hb' => h a' b' (List.mem_cons_of_mem _ hb')) _
      (h a b (List.mem_cons_self _ _) ha)

theorem isPermutation_initTable : IsPermutation initTable :=
  initTable_eq ▸ isPermutation_range

theorem ksaLoop_isPermutation (key s : List Nat) (hs : IsPermutation s) :
    IsPermutation (ksaLoop key s).1 := by
  unfold ksaLoop
  refine foldl_invariant (fun st : List Nat × Nat => IsPermutation st.1) _ _ ?_ _ hs
  intro st i hi hst
  exact IsPermutation.swap hst i _ (List.mem_range.mp hi) (Nat.mod_lt _ (by decide))

/-- Whatever the loop body of `XORKeyStream` preserves on the table, a whole call
preserves, however it ends. -/
theorem XORKeyStream_table_invariant (P : List Nat → Prop)
    (hP : ∀ s i j v, P s → P (xorStep s i j v).1)
    (c : rc4Cipher) (mem : Mem) (dst src : Slice) (hc : P c.s) :
    P (XORKeyStream c mem dst src).cipher.s := by
  have hloop : P (loopN dst src { s := c.s, i := c.i, j := c.j, mem := mem } src.len).s :=
    foldl_invariant (fun st : LoopState => P st.s) _ _
      (fun st k _ hst => hP st.s st.i st.j (st.mem (src.ptr + k)) hst) _ hc
  unfold XORKeyStream
  split_ifs
  all_goals first
    | exact hc
    | exact hloop

theorem xorStep_isPermutation (s : List Nat) (i j v : Nat) (h : IsPermutation s) :
    IsPermutation (xorStep s i j v).1 :=
  IsPermutation.swap h _ _ (Nat.mod_lt _ (by decide)) (Nat.mod_lt _ (by decide))

theorem XORKeyStream_isPermutation (c : rc4Cipher) (mem : Mem) (dst src : Slice)
    (hc : IsPermutation c.s) : IsPermutation (XORKeyStream c mem dst src).cipher.s :=
  XORKeyStream_table_invariant IsPermutation xorStep_isPermutation c mem dst src hc

/-- The loop of `Reset` after `n` rounds: the length is kept, the entries below `n`
are 0 and the others are untouched. -/
theorem resetLoop_getElem (s : List Nat) (n : Nat) :
    ((List.range n).foldl (fun s i => s.set i 0) s).length = s.length ∧
    ∀ k (h₁ : k < ((List.range n).foldl (fun s i => s.set i 0) s).length) (h₂ : k < s.length),
      ((List.range n).foldl (fun s i => s.set i 0) s)[k] = if k < n then 0 else s[k] := by
  induction n with
  | zero => simp
  | succ n ih =>
    obtain ⟨hl, hg⟩ := ih
    simp only [List.range_succ, List.foldl_append, List.foldl_cons, List.foldl_nil]
    refine ⟨by rw [List.length_set, hl], ?_⟩
    intro k h₁ h₂
    rw [List.getElem_set]
    by_cases hk : n = k
    · subst hk
      simp
    · rw [if_neg hk, hg k (by rw [hl]; exact h₂) h₂]
      by_cases hk' : k < n
      · simp [hk', Nat.lt_succ_of_lt hk']
      · have : ¬ k < n + 1 := by omega
        simp [hk', this]

theorem Reset_table (c : rc4Cipher) : (Reset c).s = List.replicate c.s.length 0 := by
  obtain ⟨hl, hg⟩ := resetLoop_getElem c.s c.s.length
  apply List.ext_getElem
  · simpa [Reset] using hl
  · intro k h₁ h₂
    have hk : k < c.s.length := by simpa using h₂
    simp only [Reset, List.getElem_replicate]
    rw [hg k (by rw [hl]; exact hk) hk, if_pos hk]

theorem getD_mem_or_zero (s : List Nat) (k : Nat) : s.getD k 0 ∈ s ∨ s.getD k 0 = 0 := by
  by_cases h : k < s.length
  · left
    rw [List.getD_eq_getElem _ _ h]
    exact List.getElem_mem h
  · right
    exact List.getD_eq_default _ _ (by omega)

/-- A property of the entries that 0 has is kept by the swap of the loop body. -/
theorem xorStep_forall (Q : Nat → Prop) (h0 : Q 0) (s : List Nat) (i j v : Nat)
    (h : ∀ b ∈ s, Q b) : ∀ b ∈ (xorStep s i j v).1, Q b := by
  have hget : ∀ k, Q (s.getD k 0) := fun k => by
    rcases getD_mem_or_zero s k with hm | hz
    · exact h _ hm
    · rw [hz]; exact h0
  intro b hb
  simp only [xorStep] at hb
  rcases List.mem_or_eq_of_mem_set hb with hb | hb
  · rcases List.mem_or_eq_of_mem_set hb with hb | hb
    · exact h b hb
    · rw [hb]; exact hget _
  · rw [hb]; exact hget _

theorem xorStep_length (s : List Nat) (i j v : Nat) : (xorStep s i j v).1.length = s.length := by
  simp [xorStep]

theorem XORKeyStream_length (c : rc4Cipher) (mem : Mem) (dst src : Slice) :
    (XORKeyStream c mem dst src).cipher.s.length = c.s.length :=
  XORKeyStream_table_invariant (fun s => s.length = c.s.length)
    (fun s i j v hs => (xorStep_length s i j v).trans hs) c mem dst src rfl

theorem XORKeyStream_zero (c : rc4Cipher) (mem : Mem) (dst src : Slice)
    (hc : c.s = List.replicate 256 0) :
    (XORKeyStream c mem dst src).cipher.s = List.replicate 256 0 := by
  rw [List.eq_replicate_iff] at hc ⊢
  refine ⟨(XORKeyStream_length c mem dst src).trans hc.1, ?_⟩
  exact XORKeyStream_table_invariant (fun s => ∀ b ∈ s, b = 0)
    (fun s i j v hs => xorStep_forall (fun b => b = 0) rfl s i j v hs) c mem dst src hc.2

/-! ## Auxiliary lemmas: sequences of calls -/

theorem Op.apply_length (c : rc4Cipher) (mem : Mem) (op : Op) :
    (op.apply c mem).1.s.length = c.s.length := by
  cases op with
  | xorKeyStream dst src => exact XORKeyStream_length c mem dst src
  | encrypt dst src => exact XORKeyStream_length c mem dst src
  | decrypt dst src => exact XORKeyStream_length c mem dst src
  | reset => simp [Op.apply, Reset_table]

theorem Op.apply_zero (c : rc4Cipher) (mem : Mem) (op : Op)
    (hc : c.s = List.replicate 256 0) : (op.apply c mem).1.s = List.replicate 256 0 := by
  cases op with
  | xorKeyStream dst src => exact XORKeyStream_zero c mem dst src hc
  | encrypt dst src => exact XORKeyStream_zero c mem dst src hc
  | decrypt dst src => exact XORKeyStream_zero c mem dst src hc
  | reset =>
    show (Reset c).s = List.replicate 256 0
    rw [Reset_table, hc, List.length_replicate]

theorem Op.apply_isPermutation (c : rc4Cipher) (mem : Mem) (op : Op) (hop : op ≠ Op.reset)
    (hc : IsPermutation c.s) : IsPermutation (op.apply c mem).1.s := by
  cases op with
  | xorKeyStream dst src => exact XORKeyStream_isPermutation c mem dst src hc
  | encrypt dst src => exact XORKeyStream_isPermutation c mem dst src hc
  | decrypt dst src => exact XORKeyStream_isPermutation c mem dst src hc
  | reset => exact absurd rfl hop

theorem runOps_zero (ops : List Op) (c : rc4Cipher) (mem : Mem)
    (hc : c.s = List.replicate 256 0) : (runOps c mem ops).1.s = List.replicate 256 0 := by
  induction ops generalizing c mem with
  | nil => exact hc
  | cons op ops ih => exact ih _ _ (Op.apply_zero c mem op hc)

theorem runOps_isPermutation (ops : List Op) (c : rc4Cipher) (mem : Mem)
    (hops : Op.reset ∉ ops) (hc : IsPermutation c.s) :
    IsPermutation (runOps c mem ops).1.s := by
  induction ops generalizing c mem with
  | nil => exact hc
  | cons op ops ih =>
    rw [List.mem_cons, not_or] at hops
    exact ih _ _ hops.2 (Op.apply_isPermutation c mem op (Ne.symm hops.1) hc)

theorem runOps_reset (ops : List Op) (c : rc4Cipher) (mem : Mem)
    (hops : Op.reset ∈ ops) (hc : c.s.length = 256) :
    (runOps c mem ops).1.s = List.replicate 256 0 := by
  induction ops generalizing c mem with
  | nil => cases hops
  | cons op ops ih =>
    by_cases hop : op = Op.reset
    · subst hop
      refine runOps_zero ops _ _ ?_
      show (Reset c).s = List.replicate 256 0
      rw [Reset_table, hc]
    · rcases List.mem_cons.mp hops with h | h
      · exact absurd h.symm hop
      · exact ih _ _ h ((Op.apply_length c mem op).trans hc)

/-! ## Auxiliary lemmas: the reference algorithms -/

theorem ksaLoop_eq_ref (key : List Nat) : (ksaLoop key (List.range 256)).1 = refKSA key := by
  unfold ksaLoop refKSA
  congr 2
  funext st n
  have hj : (st.2 + (st.1.getD n 0 % 256 + key.getD (n % key.length) 0) % 256) % 256
      = (st.2 + st.1.getD n 0 + key.getD (n % key.length) 0) % 256 := by omega
  simp only [ksaStep, swapEntries, hj]

theorem xorStep_eq_ref (s : List Nat) (i j v : Nat) (h : ∀ b ∈ s, b < 256) :
    xorStep s i j v = refStep s i j v := by
  have hj : (j + s.getD ((i + 1) % 256) 0 % 256) % 256 = (j + s.getD ((i + 1) % 256) 0) % 256 := by
    omega
  have hlt := xorStep_forall (fun b => b < 256) (by decide) s i j v h
  have hout : ∀ k, (xorStep s i j v).1.getD k 0 % 256 = (xorStep s i j v).1.getD k 0 := by
    intro k
    apply Nat.mod_eq_of_lt
    rcases getD_mem_or_zero (xorStep s i j v).1 k with hm | hz
    · exact hlt _ hm
    · rw [hz]; decide
  have hidx : ∀ x y : Nat, (x + y) % 4294967296 % 256 = (x + y) % 256 := by
    intro x y; omega
  have := hout ((s.getD ((i + 1) % 256) 0 +
    s.getD ((j + s.getD ((i + 1) % 256) 0 % 256) % 256) 0) % 4294967296 % 256)
  simp only [xorStep] at this
  simp only [xorStep, refStep, swapEntries, this]
  simp only [hj, hidx]

theorem xorBytes_eq_ref (c : rc4Cipher) (p : List Nat) (h : ∀ b ∈ c.s, b < 256) :
    xorBytes c p = refPRGA c p := by
  induction p generalizing c with
  | nil => rfl
  | cons v vs ih =>
    have hlt := xorStep_forall (fun b => b < 256) (by decide) c.s c.i c.j v h
    simp only [xorBytes, refPRGA]
    rw [ih _ hlt, xorStep_eq_ref _ _ _ _ h]

theorem NewCipher_ok (key : List Nat) (hk : 1 ≤ key.length ∧ key.length ≤ 256) :
    NewCipher key = .ok { s := (ksaLoop key initTable).1, i := 0, j := 0 } :=
  if_neg (by omega)

theorem NewCipher_secretKey : NewCipher secretKey = .ok secretCipher :=
  NewCipher_ok secretKey (by decide)

/-! ## Auxiliary lemmas: the overlap guard and the panics -/

theorem inexactOverlap_iff (x y : Slice) :
    inexactOverlap x y = true ↔
      x.len ≠ 0 ∧ y.len ≠ 0 ∧ x.ptr ≠ y.ptr ∧
        x.ptr ≤ y.ptr + (y.len - 1) ∧ y.ptr ≤ x.ptr + (x.len - 1) := by
  unfold inexactOverlap anyOverlap
  by_cases h : x.len = 0 ∨ y.len = 0 ∨ x.ptr = y.ptr
  · simp only [h, if_true, Bool.false_eq_true, false_iff]
    omega
  · simp only [h, if_false, Bool.and_eq_true, decide_eq_true_eq]
    omega

theorem share_address_iff (x y : Slice) :
    (∃ a, (x.ptr ≤ a ∧ a < x.ptr + x.len) ∧ (y.ptr ≤ a ∧ a < y.ptr + y.len)) ↔
      x.len ≠ 0 ∧ y.len ≠ 0 ∧ x.ptr ≤ y.ptr + (y.len - 1) ∧ y.ptr ≤ x.ptr + (x.len - 1) := by
  constructor
  · rintro ⟨a, ⟨h1, h2⟩, h3, h4⟩
    omega
  · rintro ⟨h1, h2, h3, h4⟩
    by_cases h : x.ptr ≤ y.ptr
    · exact ⟨y.ptr, ⟨h, by omega⟩, le_refl _, by omega⟩
    · exact ⟨x.ptr, ⟨le_refl _, by omega⟩, by omega, by omega⟩

theorem inexactOverlap_iff_partialOverlap (x y : Slice) :
    inexactOverlap x y = true ↔ PartialOverlap x y := by
  rw [inexactOverlap_iff]
  unfold PartialOverlap
  rw [share_address_iff]
  constructor
  · rintro ⟨h1, h2, h3, h4, h5⟩
    exact ⟨h3, h1, h2, h4, h5⟩
  · rintro ⟨h3, h1, h2, h4, h5⟩
    exact ⟨h1, h2, h3, h4, h5⟩

/-- Whenever `XORKeyStream` panics, the cipher and the memory are as before the call. -/
theorem XORKeyStream_panic_unchanged (c : rc4Cipher) (mem : Mem) (dst src : Slice)
    (h : (XORKeyStream c mem dst src).isPanic = true) :
    (XORKeyStream c mem dst src).cipher = c ∧ (XORKeyStream c mem dst src).mem = mem := by
  unfold XORKeyStream at h ⊢
  split_ifs at h ⊢
  all_goals first
    | exact ⟨rfl, rfl⟩
    | exact absurd h (by simp [Outcome.isPanic])

theorem XORKeyStream_isPanic_iff (c : rc4Cipher) (mem : Mem) (dst src : Slice) :
    (XORKeyStream c mem dst src).isPanic = true ↔
      src.len ≠ 0 ∧ (src.len > dst.cap ∨ inexactOverlap (dst.upTo src.len) src = true ∨
        ¬ (src.len - 1 < dst.len)) := by
  unfold XORKeyStream
  split_ifs with h1 h2 h3 h4
  all_goals simp only [Outcome.isPanic]
  all_goals simp_all

/-! ## Auxiliary lemmas: the decimal rendering -/

theorem decimalValue_append (ds : List Nat) (d : Nat) :
    decimalValue (ds ++ [d]) = 10 * decimalValue ds + d := by
  simp [decimalValue, List.foldl_append]

/-- The digits `decimalDigits` gives stand for the number they were computed from. -/
theorem decimalValue_decimalDigits (fuel n : Nat) (h : n < fuel) :
    decimalValue (decimalDigits fuel n) = n := by
  induction fuel generalizing n with
  | zero => omega
  | succ fuel ih =>
    unfold decimalDigits
    split_ifs with h10
    · simp [decimalValue]
    · rw [decimalValue_append, ih (n / 10) (by omega)]
      omega

/-- Every digit `decimalDigits` gives is below 10. -/
theorem decimalDigits_lt (fuel n : Nat) : ∀ d ∈ decimalDigits fuel n, d < 10 := by
  induction fuel generalizing n with
  | zero => simp [decimalDigits]
  | succ fuel ih =>
    unfold decimalDigits
    split_ifs with h10
    · simpa using h10
    · intro d hd
      rcases List.mem_append.mp hd with h | h
      · exact ih _ d h
      · have : d = n % 10 := by simpa using h
        omega

/-! ## Auxiliary lemmas: the keystream and the data -/

theorem xorStep_data (s : List Nat) (i j v : Nat) :
    xorStep s i j v = ((xorStep s i j 0).1, (xorStep s i j 0).2.1, (xorStep s i j 0).2.2.1,
      v ^^^ (xorStep s i j 0).2.2.2) := by
  simp [xorStep]

/-- The output of the loop is the source XORed bytewise with the output for the
all-zero source of the same length, and the final cipher is the same. -/
theorem xorBytes_zeros (c : rc4Cipher) (p : List Nat) :
    xorBytes c p = ((xorBytes c (List.replicate p.length 0)).1,
      List.zipWith (fun a b => a ^^^ b) p (xorBytes c (List.replicate p.length 0)).2) := by
  induction p generalizing c with
  | nil => simp [xorBytes]
  | cons v vs ih =>
    simp only [List.length_cons, List.replicate_succ, xorBytes, List.zipWith_cons_cons]
    rw [ih]
    rw [xorStep_data c.s c.i c.j v]

theorem zipWith_xor_cancel (a k : List Nat) (h : a.length = k.length) :
    List.zipWith (fun x y => x ^^^ y) (List.zipWith (fun x y => x ^^^ y) a k) a = k := by
  induction a generalizing k with
  | nil =>
    cases k with
    | nil => rfl
    | cons _ _ => simp at h
  | cons x xs ih =>
    cases k with
    | nil => simp at h
    | cons y ys =>
      simp only [List.zipWith_cons_cons, List.cons.injEq]
      refine ⟨?_, ih ys (by simpa using h)⟩
      rw [Nat.xor_comm x y, Nat.xor_cancel_right]

theorem xorBytes_index (c : rc4Cipher) (p : List Nat) (hi : c.i < 256) :
    (xorBytes c p).1.i = (c.i + p.length) % 256 := by
  induction p generalizing c with
  | nil => simp [xorBytes, Nat.mod_eq_of_lt hi]
  | cons v vs ih =>
    simp only [xorBytes, List.length_cons]
    rw [ih _ (by simp only [xorStep]; exact Nat.mod_lt _ (by decide))]
    simp only [xorStep]
    omega

/-- Successive accepted calls that find the same source bytes, call by call, store
the same bytes, call by call, and leave the same cipher, wherever the buffers are. -/
theorem callTrace_deterministic (calls₁ calls₂ : List (Slice × Slice)) (c : rc4Cipher)
    (mem₁ mem₂ : Mem)
    (h₁ : ∀ p ∈ calls₁, AcceptedBuffers p.1 p.2) (h₂ : ∀ p ∈ calls₂, AcceptedBuffers p.1 p.2)
    (hin : (callTrace c mem₁ calls₁).map Prod.fst = (callTrace c mem₂ calls₂).map Prod.fst) :
    (callTrace c mem₁ calls₁).map Prod.snd = (callTrace c mem₂ calls₂).map Prod.snd ∧
    (xorCalls c mem₁ calls₁).cipher = (xorCalls c mem₂ calls₂).cipher := by
  induction calls₁ generalizing calls₂ c mem₁ mem₂ with
  | nil =>
    cases calls₂ with
    | nil => exact ⟨rfl, rfl⟩
    | cons q rest => simp [callTrace] at hin
  | cons p rest₁ ih =>
    cases calls₂ with
    | nil => simp [callTrace] at hin
    | cons q rest₂ =>
      obtain ⟨d₁, s₁⟩ := p
      obtain ⟨d₂, s₂⟩ := q
      have e₁ := XORKeyStream_eq c mem₁ d₁ s₁ (h₁ (d₁, s₁) (List.mem_cons_self _ _))
      have e₂ := XORKeyStream_eq c mem₂ d₂ s₂ (h₂ (d₂, s₂) (List.mem_cons_self _ _))
      simp only [callTrace, List.map_cons, List.cons.injEq] at hin
      obtain ⟨hhead, htail⟩ := hin
      have hlen : s₁.len = s₂.len := by
        have := congrArg List.length hhead
        simpa [Slice.bytes, Mem.bytes_length] using this
      have hc₁ : (XORKeyStream c mem₁ d₁ s₁).cipher = (xorBytes c (s₁.bytes mem₁)).1 := by
        rw [e₁]; rfl
      have hc₂ : (XORKeyStream c mem₂ d₂ s₂).cipher = (xorBytes c (s₁.bytes mem₁)).1 := by
        rw [e₂, hhead]; rfl
      have ho₁ : (XORKeyStream c mem₁ d₁ s₁).mem.bytes d₁.ptr s₁.len
          = (xorBytes c (s₁.bytes mem₁)).2 := by
        rw [e₁]
        apply Mem.bytes_writeBytes_of_length
        rw [xorBytes_length, Slice.bytes, Mem.bytes_length]
      have ho₂ : (XORKeyStream c mem₂ d₂ s₂).mem.bytes d₂.ptr s₂.len
          = (xorBytes c (s₁.bytes mem₁)).2 := by
        rw [e₂, hhead]
        apply Mem.bytes_writeBytes_of_length
        rw [xorBytes_length, Slice.bytes, Mem.bytes_length]
      rw [hc₁, hc₂] at htail
      obtain ⟨ih₁, ih₂⟩ := ih rest₂ _ _ _
        (fun r hr => h₁ r (List.mem_cons_of_mem _ hr))
        (fun r hr => h₂ r (List.mem_cons_of_mem _ hr)) htail
      simp only [callTrace, xorCalls, List.map_cons, ho₁, ho₂, hc₁, hc₂, ih₁, ih₂, and_self]

/-! ## Auxiliary lemmas: the cleared cipher -/

/-- Whatever the loop body of `XORKeyStream` preserves on the table and the two
indices, a whole call preserves, however it ends. -/
theorem XORKeyStream_state_invariant (P : List Nat → Nat → Nat → Prop)
    (hP : ∀ s i j v, P s i j →
      P (xorStep s i j v).1 (xorStep s i j v).2.1 (xorStep s i j v).2.2.1)
    (c : rc4Cipher) (mem : Mem) (dst src : Slice) (hc : P c.s c.i c.j) :
    P (XORKeyStream c mem dst src).cipher.s (XORKeyStream c mem dst src).cipher.i
      (XORKeyStream c mem dst src).cipher.j := by
  have hloop : (fun st : LoopState => P st.s st.i st.j)
      (loopN dst src { s := c.s, i := c.i, j := c.j, mem := mem } src.len) :=
    foldl_invariant (fun st : LoopState => P st.s st.i st.j) _ _
      (fun st k _ hst => hP st.s st.i st.j (st.mem (src.ptr + k)) hst) _ hc
  unfold XORKeyStream
  split_ifs
  all_goals first
    | exact hc
    | exact hloop

theorem xorStep_cleared (s : List Nat) (i j v : Nat) (h : Cleared s i j) :
    Cleared (xorStep s i j v).1 (xorStep s i j v).2.1 (xorStep s i j v).2.2.1 ∧
    (xorStep s i j v).2.2.2 = v := by
  obtain ⟨⟨hl, hz⟩, hi, hj⟩ := h
  have hz' := xorStep_forall (fun b => b = 0) rfl s i j v hz
  have hget : ∀ (t : List Nat), (∀ b ∈ t, b = 0) → ∀ k, t.getD k 0 = 0 := by
    intro t ht k
    rcases getD_mem_or_zero t k with hm | h0
    · exact ht _ hm
    · exact h0
  refine ⟨⟨⟨(xorStep_length s i j v).trans hl, hz'⟩, ?_, ?_⟩, ?_⟩
  · simp only [xorStep]
    exact Nat.mod_lt _ (by decide)
  · simp only [xorStep]
    rw [hget s hz, hj]
  · have := hget _ hz' ((s.getD ((i + 1) % 256) 0 +
      s.getD ((j + s.getD ((i + 1) % 256) 0 % 256) % 256) 0) % 4294967296 % 256)
    simp only [xorStep] at this
    simp only [xorStep, this]
    simp

theorem Reset_cleared (c : rc4Cipher) (hc : c.s.length = 256) :
    Cleared (Reset c).s (Reset c).i (Reset c).j := by
  have hs : (Reset c).s = List.replicate c.s.length 0 := Reset_table c
  refine ⟨⟨by rw [hs, List.length_replicate, hc], ?_⟩, by show (0 : Nat) < 256; decide, rfl⟩
  intro b hb
  rw [hs] at hb
  exact (List.mem_replicate.mp hb).2

theorem runOps_cleared (ops : List Op) (c : rc4Cipher) (mem : Mem)
    (hc : Cleared c.s c.i c.j) :
    Cleared (runOps c mem ops).1.s (runOps c mem ops).1.i (runOps c mem ops).1.j := by
  induction ops generalizing c mem with
  | nil => exact hc
  | cons op ops ih =>
    apply ih
    have hx : ∀ dst src, Cleared (XORKeyStream c mem dst src).cipher.s
        (XORKeyStream c mem dst src).cipher.i (XORKeyStream c mem dst src).cipher.j :=
      fun dst src => XORKeyStream_state_invariant Cleared
        (fun s i j v h => (xorStep_cleared s i j v h).1) c mem dst src hc
    cases op with
    | xorKeyStream dst src => exact hx dst src
    | encrypt dst src => exact hx dst src
    | decrypt dst src => exact hx dst src
    | reset => exact Reset_cleared c hc.1.1

theorem xorBytes_cleared (c : rc4Cipher) (p : List Nat) (hc : Cleared c.s c.i c.j) :
    Cleared (xorBytes c p).1.s (xorBytes c p).1.i (xorBytes c p).1.j ∧ (xorBytes c p).2 = p := by
  induction p generalizing c with
  | nil => exact ⟨hc, rfl⟩
  | cons v vs ih =>
    obtain ⟨h₁, h₂⟩ := xorStep_cleared c.s c.i c.j v hc
    obtain ⟨h₃, h₄⟩ := ih ⟨_, _, _⟩ h₁
    simp only [xorBytes]
    exact ⟨h₃, by rw [h₂, h₄]⟩

/-! ## Auxiliary lemmas: repeated keys -/

theorem repeatKey_succ (key : List Nat) (m : Nat) :
    repeatKey key (m + 1) = key ++ repeatKey key m := by
  simp [repeatKey, List.replicate_succ]

theorem repeatKey_length (key : List Nat) (m : Nat) :
    (repeatKey key m).length = m * key.length := by
  induction m with
  | zero => simp [repeatKey]
  | succ m ih => rw [repeatKey_succ, List.length_append, ih, Nat.succ_mul, Nat.add_comm]

theorem repeatKey_getD (key : List Nat) (m r : Nat) (hr : r < m * key.length) :
    (repeatKey key m).getD r 0 = key.getD (r % key.length) 0 := by
  induction m generalizing r with
  | zero => simp at hr
  | succ m ih =>
    rw [repeatKey_succ]
    by_cases h : r < key.length
    · rw [List.getD_append _ _ _ _ h, Nat.mod_eq_of_lt h]
    · have h' : key.length ≤ r := Nat.le_of_not_lt h
      rw [List.getD_append_right _ _ _ _ h', ih (r - key.length)
        (by rw [Nat.succ_mul] at hr; omega), ← Nat.mod_eq_sub_mod h']

theorem ksaStep_repeatKey (key : List Nat) (m : Nat) (hk : 1 ≤ key.length) (hm : 1 ≤ m) :
    ksaStep (repeatKey key m) = ksaStep key := by
  funext st i
  have hpos : 0 < m * key.length := Nat.mul_pos hm hk
  have hkey : (repeatKey key m).getD (i % (repeatKey key m).length) 0
      = key.getD (i % key.length) 0 := by
    rw [repeatKey_length, repeatKey_getD key m _ (Nat.mod_lt _ hpos), Nat.mod_mul_left_mod]
  simp only [ksaStep, hkey]

/-! ## Claims -/

/-- C1. Known-answer test: `NewCipher` on the key "SECRET" succeeds, and `Encrypt`
on that fresh cipher, with a source holding the 14 bytes "This is a test" and a
separate 14-byte destination, ends normally and leaves exactly the bytes
200, 6, 5, 12, 47, 73, 80, 232, 131, 70, 200, 214, 18, 118 in the destination. -/
theorem known_answer_test (mem : Mem) (dst src : Slice)
    (hsrc : src.bytes mem = testInput) (hdst : dst.len = 14)
    (hb : DisjointBuffers dst src) :
    ∃ c, NewCipher secretKey = .ok c ∧
      ∃ c' mem', Encrypt c mem dst src = .done c' mem' ∧
        dst.bytes mem' = [200, 6, 5, 12, 47, 73, 80, 232, 131, 70, 200, 214, 18, 118] := by
  refine ⟨{ s := (ksaLoop secretKey initTable).1, i := 0, j := 0 }, rfl, _, _,
    XORKeyStream_eq _ mem dst src (AcceptedBuffers.of_disjoint hb), ?_⟩
  have hout : (xorBytes { s := (ksaLoop secretKey initTable).1, i := 0, j := 0 } testInput).2
      = [200, 6, 5, 12, 47, 73, 80, 232, 131, 70, 200, 214, 18, 118] := by
    decide!
  rw [hsrc, hout, Slice.bytes, hdst]
  exact Mem.bytes_writeBytes_of_length mem dst.ptr 14 _ rfl

/-- C1 at a concrete memory: the source at addresses 0..13, the destination at
addresses 14..27. -/
theorem known_answer_test_witness :
    ∃ c, NewCipher secretKey = .ok c ∧
      ∃ c' mem', Encrypt c (fun a => testInput.getD a 0) ⟨14, 14, 14⟩ ⟨0, 14, 14⟩
          = .done c' mem' ∧
        Slice.bytes ⟨14, 14, 14⟩ mem'
          = [200, 6, 5, 12, 47, 73, 80, 232, 131, 70, 200, 214, 18, 118] :=
  known_answer_test (fun a => testInput.getD a 0) ⟨14, 14, 14⟩ ⟨0, 14, 14⟩
    (by decide) (by decide) (by decide)

/-- C2. `NewCipher` returns an error exactly when the key length `k` is 0 or above
256; the error is then `KeySizeError(k)` (and the result holds no cipher); for
`1 ≤ k ≤ 256`, 256 included, it returns a cipher and no error. -/
theorem NewCipher_key_size (key : List Nat) :
    ((∃ e, NewCipher key = .error e) ↔ (key.length = 0 ∨ key.length > 256)) ∧
    ((key.length = 0 ∨ key.length > 256) →
      NewCipher key = .error ⟨(key.length : Int)⟩ ∧ ∀ c, NewCipher key ≠ .ok c) ∧
    ((1 ≤ key.length ∧ key.length ≤ 256) →
      (∃ c, NewCipher key = .ok c) ∧ ∀ e, NewCipher key ≠ .error e) := by
  by_cases h : key.length < 1 ∨ key.length > 256
  · have hk : key.length = 0 ∨ key.length > 256 := by omega
    have he : NewCipher key = .error ⟨(key.length : Int)⟩ := if_pos h
    refine ⟨⟨fun _ => hk, fun _ => ⟨_, he⟩⟩, fun _ => ⟨he, ?_⟩, fun h' => ?_⟩
    · intro c hc
      rw [he] at hc
      cases hc
    · omega
  · have hk : ¬ (key.length = 0 ∨ key.length > 256) := by omega
    have ho : NewCipher key = .ok { s := (ksaLoop key initTable).1, i := 0, j := 0 } :=
      if_neg h
    refine ⟨⟨?_, fun h' => absurd h' hk⟩, fun h' => absurd h' hk, fun _ => ⟨⟨_, ho⟩, ?_⟩⟩
    · rintro ⟨e, he⟩
      rw [ho] at he
      cases he
    · intro e he
      rw [ho] at he
      cases he

/-- C2 at the boundary keys: 0 bytes, 256 bytes and 257 bytes. -/
theorem NewCipher_key_size_witness :
    NewCipher [] = .error ⟨0⟩ ∧
    (∃ c, NewCipher (List.replicate 256 7) = .ok c) ∧
    NewCipher (List.replicate 257 7) = .error ⟨257⟩ :=
  ⟨((NewCipher_key_size []).2.1 (by simp)).1,
   ((NewCipher_key_size (List.replicate 256 7)).2.2
      (by rw [List.length_replicate]; decide)).1,
   by simpa only [List.length_replicate, Nat.cast_ofNat] using
      ((NewCipher_key_size (List.replicate 257 7)).2.1
        (by rw [List.length_replicate]; decide)).1⟩

/-- C3. Encrypt-then-decrypt is the identity: for a key of 1 to 256 bytes and a
source holding the plaintext, `Encrypt` on a fresh cipher into a disjoint
destination as long as the source, then `Decrypt` on a second fresh cipher of the
same key from that destination into a disjoint output buffer of the same length,
both end normally and the output buffer holds exactly the plaintext. -/
theorem encrypt_decrypt_identity (key : List Nat) (mem : Mem) (src dst out : Slice)
    (hk : 1 ≤ key.length ∧ key.length ≤ 256)
    (hd : dst.len = src.len) (ho : out.len = dst.len)
    (hb₁ : DisjointBuffers dst src) (hb₂ : DisjointBuffers out dst) :
    ∃ c, NewCipher key = .ok c ∧
      ∃ c₁ mem₁, Encrypt c mem dst src = .done c₁ mem₁ ∧
        ∃ c₂ mem₂, Decrypt c mem₁ out dst = .done c₂ mem₂ ∧
          out.bytes mem₂ = src.bytes mem := by
  refine ⟨{ s := (ksaLoop key initTable).1, i := 0, j := 0 }, NewCipher_ok key hk,
    _, _, XORKeyStream_eq _ mem dst src (AcceptedBuffers.of_disjoint hb₁),
    _, _, XORKeyStream_eq _ _ out dst (AcceptedBuffers.of_disjoint hb₂), ?_⟩
  have h1 : dst.bytes (mem.writeBytes dst.ptr
      (xorBytes { s := (ksaLoop key initTable).1, i := 0, j := 0 } (src.bytes mem)).2)
      = (xorBytes { s := (ksaLoop key initTable).1, i := 0, j := 0 } (src.bytes mem)).2 := by
    apply Mem.bytes_writeBytes_of_length
    rw [xorBytes_length, Slice.bytes, Mem.bytes_length, hd]
  rw [h1, xorBytes_xorBytes]
  apply Mem.bytes_writeBytes_of_length
  rw [Slice.bytes, Mem.bytes_length, ho, hd]

/-- C3 at the key "SECRET": plaintext at addresses 0..13, ciphertext at 14..27,
decrypted text at 28..41. -/
theorem encrypt_decrypt_identity_witness :
    ∃ c, NewCipher secretKey = .ok c ∧
      ∃ c₁ mem₁, Encrypt c (fun a => testInput.getD a 0) ⟨14, 14, 14⟩ ⟨0, 14, 14⟩
          = .done c₁ mem₁ ∧
        ∃ c₂ mem₂, Decrypt c mem₁ ⟨28, 14, 14⟩ ⟨14, 14, 14⟩ = .done c₂ mem₂ ∧
          Slice.bytes ⟨28, 14, 14⟩ mem₂
            = Slice.bytes ⟨0, 14, 14⟩ (fun a => testInput.getD a 0) :=
  encrypt_decrypt_identity secretKey (fun a => testInput.getD a 0)
    ⟨0, 14, 14⟩ ⟨14, 14, 14⟩ ⟨28, 14, 14⟩
    (by decide) (by decide) (by decide) (by decide) (by decide)

/-- C4. Streaming equivalence: from any cipher state, a call of `XORKeyStream` on a
source holding `a` followed by a call on a source holding `b` writes outputs whose
concatenation is the output of one call, from the original state, on a source
holding `a ++ b`; all three calls end normally and both ways leave the same table
and indices.  Likewise for any number of successive calls `calls`: none panics,
and their outputs in order, and the final table and indices, are those of one call
on a source holding all their inputs in order. -/
theorem streaming_equivalence (c : rc4Cipher) (mem mem' : Mem)
    (da sa db sb d s : Slice)
    (ha : AcceptedBuffers da sa) (hb : AcceptedBuffers db sb) (hab : AcceptedBuffers d s)
    (hs : s.bytes mem' = sa.bytes mem ++ sb.bytes (XORKeyStream c mem da sa).mem)
    (calls : List (Slice × Slice)) (memₙ : Mem) (dₙ sₙ : Slice)
    (hcalls : ∀ p ∈ calls, AcceptedBuffers p.1 p.2) (hn : AcceptedBuffers dₙ sₙ)
    (hsₙ : sₙ.bytes memₙ = (xorCalls c mem calls).input) :
    (∃ c₁ m₁ c₂ m₂ c' m',
      XORKeyStream c mem da sa = .done c₁ m₁ ∧
      XORKeyStream c₁ m₁ db sb = .done c₂ m₂ ∧
      XORKeyStream c mem' d s = .done c' m' ∧
      m₁.bytes da.ptr sa.len ++ m₂.bytes db.ptr sb.len = m'.bytes d.ptr s.len ∧
      c₂ = c') ∧
    ((xorCalls c mem calls).panicked = false ∧
      ∃ c' m', XORKeyStream c memₙ dₙ sₙ = .done c' m' ∧
        (xorCalls c mem calls).output = m'.bytes dₙ.ptr sₙ.len ∧
        (xorCalls c mem calls).cipher = c') := by
  constructor
  · have e₁ := XORKeyStream_eq c mem da sa ha
    rw [e₁] at hs
    simp only [Outcome.mem] at hs
    refine ⟨_, _, _, _, _, _, e₁, XORKeyStream_eq _ _ db sb hb,
      XORKeyStream_eq c mem' d s hab, ?_, ?_⟩
    · rw [hs, xorBytes_append]
      rw [Mem.bytes_writeBytes_of_length _ _ _ _
          (by rw [xorBytes_length]; simp [Slice.bytes, Mem.bytes_length]),
        Mem.bytes_writeBytes_of_length _ _ _ _
          (by rw [xorBytes_length]; simp [Slice.bytes, Mem.bytes_length]),
        Mem.bytes_writeBytes_of_length]
      have hlen := congrArg List.length hs
      simp only [Slice.bytes, Mem.bytes_length, List.length_append] at hlen
      simp [xorBytes_length, Slice.bytes, Mem.bytes_length, hlen]
    · rw [hs, xorBytes_append]
  · obtain ⟨h₁, h₂, h₃⟩ := xorCalls_eq calls c mem hcalls
    refine ⟨h₁, _, _, XORKeyStream_eq c memₙ dₙ sₙ hn, ?_, ?_⟩
    · rw [h₃, hsₙ, Mem.bytes_writeBytes_of_length]
      rw [xorBytes_length, ← hsₙ, Slice.bytes, Mem.bytes_length]
    · rw [h₂, hsₙ]

/-- C4 at the key "SECRET": the 14-byte text at addresses 0..13 in one call into
addresses 14..27, against its first 5 bytes and then its last 9 bytes, and against
chunks of 5, 5 and 4 bytes. -/
theorem streaming_equivalence_witness :
    (∃ c₁ m₁ c₂ m₂ c' m',
      XORKeyStream secretCipher (fun a => testInput.getD a 0) ⟨14, 5, 14⟩ ⟨0, 5, 14⟩
        = .done c₁ m₁ ∧
      XORKeyStream c₁ m₁ ⟨19, 9, 9⟩ ⟨5, 9, 9⟩ = .done c₂ m₂ ∧
      XORKeyStream secretCipher (fun a => testInput.getD a 0) ⟨14, 14, 14⟩ ⟨0, 14, 14⟩
        = .done c' m' ∧
      m₁.bytes 14 5 ++ m₂.bytes 19 9 = m'.bytes 14 14 ∧
      c₂ = c') ∧
    ((xorCalls secretCipher (fun a => testInput.getD a 0)
        [(⟨14, 5, 14⟩, ⟨0, 5, 14⟩), (⟨19, 5, 9⟩, ⟨5, 5, 9⟩), (⟨24, 4, 4⟩, ⟨10, 4, 4⟩)]).panicked
          = false ∧
      ∃ c' m',
        XORKeyStream secretCipher (fun a => testInput.getD a 0) ⟨14, 14, 14⟩ ⟨0, 14, 14⟩
          = .done c' m' ∧
        (xorCalls secretCipher (fun a => testInput.getD a 0)
          [(⟨14, 5, 14⟩, ⟨0, 5, 14⟩), (⟨19, 5, 9⟩, ⟨5, 5, 9⟩), (⟨24, 4, 4⟩, ⟨10, 4, 4⟩)]).output
            = m'.bytes 14 14 ∧
        (xorCalls secretCipher (fun a => testInput.getD a 0)
          [(⟨14, 5, 14⟩, ⟨0, 5, 14⟩), (⟨19, 5, 9⟩, ⟨5, 5, 9⟩), (⟨24, 4, 4⟩, ⟨10, 4, 4⟩)]).cipher
            = c') :=
  streaming_equivalence secretCipher (fun a => testInput.getD a 0) (fun a => testInput.getD a 0)
    ⟨14, 5, 14⟩ ⟨0, 5, 14⟩ ⟨19, 9, 9⟩ ⟨5, 9, 9⟩ ⟨14, 14, 14⟩ ⟨0, 14, 14⟩
    (by decide) (by decide) (by decide) (by decide!)
    [(⟨14, 5, 14⟩, ⟨0, 5, 14⟩), (⟨19, 5, 9⟩, ⟨5, 5, 9⟩), (⟨24, 4, 4⟩, ⟨10, 4, 4⟩)]
    (fun a => testInput.getD a 0) ⟨14, 14, 14⟩ ⟨0, 14, 14⟩
    (by decide) (by decide) (by decide!)

/-- C5. Permutation invariant: for every key of 1 to 256 bytes the table produced
by `NewCipher` holds every value 0..255 exactly once; and from every state whose
table is such a bijection, for every source and destination, the table after
`XORKeyStream` is again such a bijection, so every stored entry is below 256. -/
theorem permutation_invariant (key : List Nat) (c : rc4Cipher) (mem : Mem) (dst src : Slice)
    (hk : 1 ≤ key.length ∧ key.length ≤ 256) (hc : IsPermutation c.s) :
    (∃ c₀, NewCipher key = .ok c₀ ∧ IsPermutation c₀.s) ∧
    IsPermutation (XORKeyStream c mem dst src).cipher.s ∧
    ∀ x ∈ (XORKeyStream c mem dst src).cipher.s, x < 256 := by
  have hx := XORKeyStream_isPermutation c mem dst src hc
  exact ⟨⟨_, NewCipher_ok key hk, ksaLoop_isPermutation key initTable isPermutation_initTable⟩,
    hx, hx.lt⟩

theorem secretCipher_isPermutation : IsPermutation secretCipher.s :=
  ksaLoop_isPermutation secretKey initTable isPermutation_initTable

/-- C5 at the key "SECRET", with the keystream call on the cipher of that key. -/
theorem permutation_invariant_witness :
    (∃ c₀, NewCipher secretKey = .ok c₀ ∧ IsPermutation c₀.s) ∧
    IsPermutation (XORKeyStream secretCipher (fun a => testInput.getD a 0)
      ⟨14, 14, 14⟩ ⟨0, 14, 14⟩).cipher.s ∧
    ∀ x ∈ (XORKeyStream secretCipher (fun a => testInput.getD a 0)
      ⟨14, 14, 14⟩ ⟨0, 14, 14⟩).cipher.s, x < 256 :=
  permutation_invariant secretKey secretCipher (fun a => testInput.getD a 0)
    ⟨14, 14, 14⟩ ⟨0, 14, 14⟩ (by decide) secretCipher_isPermutation

/-- C6 as stated fails: on the cipher `NewCipher` returns for the key "SECRET", the
one-call sequence `Reset` leaves a table that is not a bijection on {0, ..., 255}. -/
theorem reset_leaves_no_bijection :
    NewCipher secretKey = .ok secretCipher ∧
    ¬ IsPermutation (runOps secretCipher (fun _ => 0) [Op.reset]).1.s := by
  refine ⟨NewCipher_secretKey, ?_⟩
  show ¬ IsPermutation (Reset secretCipher).s
  rw [Reset_table]
  intro h
  have h1 := h.2 1 (by decide)
  rw [List.count_replicate] at h1
  simp at h1

/-- C6, amended. After any finite sequence of calls of `XORKeyStream`, `Encrypt`,
`Decrypt` and `Reset` on a cipher returned by a successful `NewCipher`: if the
sequence holds no `Reset`, the table is a bijection on {0, ..., 255}; if it holds
a `Reset`, all 256 entries of the table are 0. -/
theorem table_after_calls (key : List Nat) (mem : Mem) (ops : List Op)
    (hk : 1 ≤ key.length ∧ key.length ≤ 256) :
    ∃ c, NewCipher key = .ok c ∧
      (Op.reset ∉ ops → IsPermutation (runOps c mem ops).1.s) ∧
      (Op.reset ∈ ops → (runOps c mem ops).1.s = List.replicate 256 0) := by
  have hp := ksaLoop_isPermutation key initTable isPermutation_initTable
  exact ⟨_, NewCipher_ok key hk, fun h => runOps_isPermutation ops _ mem h hp,
    fun h => runOps_reset ops _ mem h hp.1⟩

/-- C6, amended, at the key "SECRET": an encryption followed by a decryption, and
the same two calls with a `Reset` in between. -/
theorem table_after_calls_witness :
    (∃ c, NewCipher secretKey = .ok c ∧
      IsPermutation (runOps c (fun a => testInput.getD a 0)
        [Op.encrypt ⟨14, 14, 14⟩ ⟨0, 14, 14⟩, Op.decrypt ⟨28, 14, 14⟩ ⟨14, 14, 14⟩]).1.s) ∧
    (∃ c, NewCipher secretKey = .ok c ∧
      (runOps c (fun a => testInput.getD a 0)
        [Op.encrypt ⟨14, 14, 14⟩ ⟨0, 14, 14⟩, Op.reset,
          Op.decrypt ⟨28, 14, 14⟩ ⟨14, 14, 14⟩]).1.s = List.replicate 256 0) := by
  constructor
  · obtain ⟨c, h₁, h₂, _⟩ := table_after_calls secretKey (fun a => testInput.getD a 0)
      [Op.encrypt ⟨14, 14, 14⟩ ⟨0, 14, 14⟩, Op.decrypt ⟨28, 14, 14⟩ ⟨14, 14, 14⟩] (by decide)
    exact ⟨c, h₁, h₂ (by decide)⟩
  · obtain ⟨c, h₁, _, h₂⟩ := table_after_calls secretKey (fun a => testInput.getD a 0)
      [Op.encrypt ⟨14, 14, 14⟩ ⟨0, 14, 14⟩, Op.reset, Op.decrypt ⟨28, 14, 14⟩ ⟨14, 14, 14⟩]
      (by decide)
    exact ⟨c, h₁, h₂ (by decide)⟩

/-- C7. Key schedule equals the reference KSA: for every key of length `k` with
`1 ≤ k ≤ 256`, `NewCipher` returns a state with `i = 0`, `j = 0` and the table of
the reference key schedule `refKSA`. -/
theorem key_schedule_refines_reference (key : List Nat)
    (hk : 1 ≤ key.length ∧ key.length ≤ 256) :
    ∃ c, NewCipher key = .ok c ∧ c.i = 0 ∧ c.j = 0 ∧ c.s = refKSA key := by
  refine ⟨_, NewCipher_ok key hk, rfl, rfl, ?_⟩
  show (ksaLoop key initTable).1 = refKSA key
  rw [initTable_eq]
  exact ksaLoop_eq_ref key

/-- C7 at the key "SECRET". -/
theorem key_schedule_refines_reference_witness :
    ∃ c, NewCipher secretKey = .ok c ∧ c.i = 0 ∧ c.j = 0 ∧ c.s = refKSA secretKey :=
  key_schedule_refines_reference secretKey (by decide)

/-- C8. Keystream step equals the reference PRGA: from every state whose table
entries are all below 256, on buffers `XORKeyStream` accepts, the call ends
normally and its final state and the bytes it leaves in the destination are those
of the reference keystream `refPRGA` run on the source bytes; no other byte of
memory changes. -/
theorem keystream_refines_reference (c : rc4Cipher) (mem : Mem) (dst src : Slice)
    (hc : ∀ b ∈ c.s, b < 256) (hb : AcceptedBuffers dst src) :
    XORKeyStream c mem dst src =
      .done (refPRGA c (src.bytes mem)).1
        (mem.writeBytes dst.ptr (refPRGA c (src.bytes mem)).2) ∧
    (XORKeyStream c mem dst src).mem.bytes dst.ptr src.len = (refPRGA c (src.bytes mem)).2 := by
  have h := XORKeyStream_eq c mem dst src hb
  rw [xorBytes_eq_ref c _ hc] at h
  refine ⟨h, ?_⟩
  rw [h]
  apply Mem.bytes_writeBytes_of_length
  rw [← xorBytes_eq_ref c _ hc, xorBytes_length, Slice.bytes, Mem.bytes_length]

/-- C8 at the 256-entry table of the key "SECRET" (a bijection on 0..255, so all
entries are below 256), the text at addresses 0..13 and the destination at
addresses 14..27; there the reference keystream gives the bytes `expect` of
`TestRC4`. -/
theorem keystream_refines_reference_witness :
    secretCipher.s.length = 256 ∧
    XORKeyStream secretCipher (fun a => testInput.getD a 0) ⟨14, 14, 14⟩ ⟨0, 14, 14⟩ =
      .done (refPRGA secretCipher
          (Slice.bytes ⟨0, 14, 14⟩ (fun a => testInput.getD a 0))).1
        (Mem.writeBytes (fun a => testInput.getD a 0) 14
          (refPRGA secretCipher
            (Slice.bytes ⟨0, 14, 14⟩ (fun a => testInput.getD a 0))).2) ∧
    (XORKeyStream secretCipher (fun a => testInput.getD a 0)
        ⟨14, 14, 14⟩ ⟨0, 14, 14⟩).mem.bytes 14 14 =
      (refPRGA secretCipher
        (Slice.bytes ⟨0, 14, 14⟩ (fun a => testInput.getD a 0))).2 ∧
    (refPRGA secretCipher (Slice.bytes ⟨0, 14, 14⟩ (fun a => testInput.getD a 0))).2
      = [200, 6, 5, 12, 47, 73, 80, 232, 131, 70, 200, 214, 18, 118] :=
  ⟨secretCipher_isPermutation.1,
   (keystream_refines_reference secretCipher (fun a => testInput.getD a 0)
      ⟨14, 14, 14⟩ ⟨0, 14, 14⟩ secretCipher_isPermutation.lt (by decide)).1,
   (keystream_refines_reference secretCipher (fun a => testInput.getD a 0)
      ⟨14, 14, 14⟩ ⟨0, 14, 14⟩ secretCipher_isPermutation.lt (by decide)).2,
   by decide!⟩

/-- C9. Empty-input no-op: with a zero-length source, for every state and every
destination, `XORKeyStream` ends normally with the table, both indices and every
byte of memory unchanged; so a call on any source after it gives what that call
gives alone. -/
theorem empty_source_is_noop (c : rc4Cipher) (mem : Mem) (dst src : Slice)
    (h : src.len = 0) :
    XORKeyStream c mem dst src = .done c mem ∧
    ∀ dst' src', XORKeyStream (XORKeyStream c mem dst src).cipher
        (XORKeyStream c mem dst src).mem dst' src' = XORKeyStream c mem dst' src' := by
  have h1 : XORKeyStream c mem dst src = .done c mem := if_pos h
  refine ⟨h1, fun dst' src' => ?_⟩
  rw [h1]
  rfl

/-- C9 with an empty source that lies inside the destination's address range. -/
theorem empty_source_is_noop_witness :
    XORKeyStream secretCipher (fun a => testInput.getD a 0) ⟨0, 5, 5⟩ ⟨3, 0, 2⟩
      = .done secretCipher (fun a => testInput.getD a 0) ∧
    ∀ dst' src', XORKeyStream
        (XORKeyStream secretCipher (fun a => testInput.getD a 0) ⟨0, 5, 5⟩ ⟨3, 0, 2⟩).cipher
        (XORKeyStream secretCipher (fun a => testInput.getD a 0) ⟨0, 5, 5⟩ ⟨3, 0, 2⟩).mem
        dst' src'
      = XORKeyStream secretCipher (fun a => testInput.getD a 0) dst' src' :=
  empty_source_is_noop secretCipher (fun a => testInput.getD a 0) ⟨0, 5, 5⟩ ⟨3, 0, 2⟩ rfl

/-- C10 as stated fails: a 12-byte destination at addresses 0..11 and a 4-byte
source at addresses 10..13 overlap partially (they share address 10 and start at
different addresses), yet `XORKeyStream` does not panic: the guard looks only at
the first 4 bytes of the destination. -/
theorem overlap_past_source_length_not_fatal :
    (Slice.mk 10 4 4).len ≠ 0 ∧
    PartialOverlap (Slice.mk 0 12 12) (Slice.mk 10 4 4) ∧
    (XORKeyStream secretCipher (fun _ => 0) (Slice.mk 0 12 12) (Slice.mk 10 4 4)).isPanic
      = false :=
  ⟨by decide, ⟨by decide, 10, by decide⟩, rfl⟩

/-- C10, amended. For every state and every non-empty source, whenever the source
and the first `len(src)` bytes of the destination overlap partially (they share an
address but do not begin at the same address), `XORKeyStream` panics, with the
table, the indices and every byte of memory as they were before the call. -/
theorem partial_overlap_panics (c : rc4Cipher) (mem : Mem) (dst src : Slice)
    (h0 : src.len ≠ 0) (hov : PartialOverlap (dst.upTo src.len) src) :
    ∃ msg, XORKeyStream c mem dst src = .panicked msg c mem := by
  obtain ⟨hp, a, ⟨ha1, ha2⟩, ha3, ha4⟩ := hov
  simp only [Slice.upTo] at hp ha1 ha2
  by_cases hcap : src.len > dst.cap
  · exact ⟨"slice bounds out of range",
      by simp only [XORKeyStream, h0, hcap, if_true, if_false]⟩
  · have hg : inexactOverlap (dst.upTo src.len) src = true := by
      unfold inexactOverlap anyOverlap Slice.upTo
      have h1 : ¬ (src.len = 0 ∨ src.len = 0 ∨ dst.ptr = src.ptr) := by
        intro h; rcases h with h | h | h
        · exact h0 h
        · exact h0 h
        · exact hp h
      simp only [h1, if_false]
      have h2 : src.len > 0 := Nat.pos_of_ne_zero h0
      have h3 : dst.ptr ≤ src.ptr + (src.len - 1) := by omega
      have h4 : src.ptr ≤ dst.ptr + (src.len - 1) := by omega
      simp [h2, h3, h4]
    exact ⟨"crypto/rc4: invalid buffer overlap",
      by simp only [XORKeyStream, h0, hcap, hg, if_true, if_false]⟩

/-- C10, amended, at a destination shifted by 2 bytes against a 4-byte source. -/
theorem partial_overlap_panics_witness :
    ∃ msg, XORKeyStream secretCipher (fun _ => 0) ⟨2, 4, 4⟩ ⟨0, 4, 4⟩
      = .panicked msg secretCipher (fun _ => 0) :=
  partial_overlap_panics secretCipher (fun _ => 0) ⟨2, 4, 4⟩ ⟨0, 4, 4⟩ (by decide)
    ⟨by decide, 2, by decide⟩

/-- C11. In-place operation matches disjoint-buffer operation: for every state and
every buffer (non-empty or not), `XORKeyStream` with the destination and the source being
the same memory (same start, same length) ends normally, and leaves in that buffer
exactly the bytes that a call from the same state writes to a disjoint destination
for a source with the same contents; both calls leave the same table and indices. -/
theorem in_place_matches_disjoint (c : rc4Cipher) (mem mem' : Mem) (dst src dst' src' : Slice)
    (hp : dst.ptr = src.ptr) (hl : dst.len = src.len)
    (hcap : dst.len ≤ dst.cap)
    (hd : DisjointBuffers dst' src') (hsame : src'.bytes mem' = src.bytes mem) :
    ∃ c₁ m₁ c₂ m₂,
      XORKeyStream c mem dst src = .done c₁ m₁ ∧
      XORKeyStream c mem' dst' src' = .done c₂ m₂ ∧
      dst.bytes m₁ = m₂.bytes dst'.ptr src'.len ∧
      c₁ = c₂ := by
  have ha : AcceptedBuffers dst src := ⟨le_of_eq hl.symm, hcap, Or.inl hp⟩
  have hlen : src'.len = src.len := by
    have := congrArg List.length hsame
    simpa [Slice.bytes, Mem.bytes_length] using this
  refine ⟨_, _, _, _, XORKeyStream_eq c mem dst src ha,
    XORKeyStream_eq c mem' dst' src' (AcceptedBuffers.of_disjoint hd), ?_, ?_⟩
  · rw [hsame, Slice.bytes, Mem.bytes_writeBytes_of_length, Mem.bytes_writeBytes_of_length]
    · rw [xorBytes_length, Slice.bytes, Mem.bytes_length, hlen]
    · rw [xorBytes_length, Slice.bytes, Mem.bytes_length, hl]
  · rw [hsame]

/-- C11 at the key "SECRET": the text encrypted in place at addresses 0..13, against
the same text encrypted from addresses 0..13 into addresses 14..27. -/
theorem in_place_matches_disjoint_witness :
    ∃ c₁ m₁ c₂ m₂,
      XORKeyStream secretCipher (fun a => testInput.getD a 0) ⟨0, 14, 14⟩ ⟨0, 14, 14⟩
        = .done c₁ m₁ ∧
      XORKeyStream secretCipher (fun a => testInput.getD a 0) ⟨14, 14, 14⟩ ⟨0, 14, 14⟩
        = .done c₂ m₂ ∧
      Slice.bytes ⟨0, 14, 14⟩ m₁ = m₂.bytes 14 14 ∧
      c₁ = c₂ :=
  in_place_matches_disjoint secretCipher (fun a => testInput.getD a 0)
    (fun a => testInput.getD a 0) ⟨0, 14, 14⟩ ⟨0, 14, 14⟩ ⟨14, 14, 14⟩ ⟨0, 14, 14⟩
    rfl rfl (by decide) (by decide) rfl

/-- C12. `Reset`: for every state (with its table of 256 entries), after `Reset` the
table has 256 entries, every one of them is 0, and both `i` and `j` are 0. -/
theorem reset_clears_state (c : rc4Cipher) (hc : c.s.length = 256) :
    (Reset c).s.length = 256 ∧ (∀ k, k < 256 → (Reset c).s.getD k 1 = 0) ∧
    (∀ x ∈ (Reset c).s, x = 0) ∧ (Reset c).i = 0 ∧ (Reset c).j = 0 := by
  have hs : (Reset c).s = List.replicate c.s.length 0 := Reset_table c
  refine ⟨by rw [hs, List.length_replicate, hc], ?_, ?_, rfl, rfl⟩
  · intro k hk
    rw [hs, List.getD_eq_getElem _ _ (by rw [List.length_replicate, hc]; exact hk),
      List.getElem_replicate]
  · intro x hx
    rw [hs] at hx
    exact (List.mem_replicate.mp hx).2

/-- C12 at the cipher of the key "SECRET". -/
theorem reset_clears_state_witness :
    (Reset secretCipher).s.length = 256 ∧
    (∀ k, k < 256 → (Reset secretCipher).s.getD k 1 = 0) ∧
    (∀ x ∈ (Reset secretCipher).s, x = 0) ∧
    (Reset secretCipher).i = 0 ∧ (Reset secretCipher).j = 0 :=
  reset_clears_state secretCipher secretCipher_isPermutation.1

/-- C13. Destination frame: for every state, every source of length `n` (non-empty
or not) and every destination of length `m ≥ n` whose first `n` bytes share no address
with the source, `XORKeyStream` ends normally and writes only the first `n` bytes
of the destination: every destination byte at index `n..m-1` keeps its value, the
source bytes are unchanged, and so is every byte outside those first `n` bytes. -/
theorem destination_frame (c : rc4Cipher) (mem : Mem) (dst src : Slice)
    (hb : DisjointBuffers dst src) :
    ∃ c' m', XORKeyStream c mem dst src = .done c' m' ∧
      (∀ k, src.len ≤ k → k < dst.len → m' (dst.ptr + k) = mem (dst.ptr + k)) ∧
      src.bytes m' = src.bytes mem ∧
      (∀ a, a < dst.ptr ∨ dst.ptr + src.len ≤ a → m' a = mem a) := by
  have hlen : (xorBytes c (src.bytes mem)).2.length = src.len := by
    rw [xorBytes_length, Slice.bytes, Mem.bytes_length]
  have hout : ∀ a, a < dst.ptr ∨ dst.ptr + src.len ≤ a →
      mem.writeBytes dst.ptr (xorBytes c (src.bytes mem)).2 a = mem a := by
    intro a ha
    apply Mem.writeBytes_outside
    rw [hlen]
    exact ha
  refine ⟨_, _, XORKeyStream_eq c mem dst src (AcceptedBuffers.of_disjoint hb), ?_, ?_, hout⟩
  · intro k hk _
    exact hout _ (by omega)
  · apply Mem.bytes_congr
    intro k hk
    apply hout
    have := hb.2.2
    unfold RangesDisjoint at this
    omega

/-- C13 at the key "SECRET": a 4-byte source at addresses 0..3 and a 10-byte
destination at addresses 4..13. -/
theorem destination_frame_witness :
    ∃ c' m', XORKeyStream secretCipher (fun a => testInput.getD a 0) ⟨4, 10, 10⟩ ⟨0, 4, 4⟩
        = .done c' m' ∧
      (∀ k, (Slice.mk 0 4 4).len ≤ k → k < (Slice.mk 4 10 10).len →
        m' ((Slice.mk 4 10 10).ptr + k)
          = (fun a => testInput.getD a 0) ((Slice.mk 4 10 10).ptr + k)) ∧
      Slice.bytes ⟨0, 4, 4⟩ m' = Slice.bytes ⟨0, 4, 4⟩ (fun a => testInput.getD a 0) ∧
      (∀ a, a < (Slice.mk 4 10 10).ptr ∨ (Slice.mk 4 10 10).ptr + (Slice.mk 0 4 4).len ≤ a →
        m' a = (fun a => testInput.getD a 0) a) :=
  destination_frame secretCipher (fun a => testInput.getD a 0) ⟨4, 10, 10⟩ ⟨0, 4, 4⟩
    (by decide)

/-- C14. For every integer `n`, the message of `KeySizeError(n)` is the fixed prefix
"crypto/rc4: invalid key size " followed by the decimal rendering of `n`: for a
non-negative `n` the characters after the prefix are the decimal digits of `n`;
`KeySizeError(257)` renders as "crypto/rc4: invalid key size 257" and
`KeySizeError(0)` as "crypto/rc4: invalid key size 0". -/
theorem key_size_error_message (n : Int) :
    KeySizeError.Error ⟨n⟩ = "crypto/rc4: invalid key size " ++ Itoa n ∧
    (∀ m : Nat, ∃ ds : List Nat,
      KeySizeError.Error ⟨(m : Int)⟩
        = "crypto/rc4: invalid key size " ++ String.mk (ds.map Nat.digitChar) ∧
      (∀ d ∈ ds, d < 10) ∧ decimalValue ds = m) ∧
    KeySizeError.Error ⟨257⟩ = "crypto/rc4: invalid key size 257" ∧
    KeySizeError.Error ⟨0⟩ = "crypto/rc4: invalid key size 0" := by
  refine ⟨rfl, ?_, by decide, by decide⟩
  intro m
  refine ⟨decimalDigits (m + 1) m, ?_, decimalDigits_lt _ _,
    decimalValue_decimalDigits _ _ (Nat.lt_succ_self m)⟩
  have h : ¬ ((m : Int) < 0) := by omega
  simp only [KeySizeError.Error, Itoa, h, if_false, Int.natAbs_ofNat]
  rfl

/-- C16. Overlap guard: with each slice a start address and a length,
`inexactOverlap(x, y)` is true exactly when both slices are non-empty, their start
addresses differ and their address ranges share an address, which is to say
`start(x) ≤ last(y)` and `start(y) ≤ last(x)`; so it is false when either slice is
empty, when both start at the same address, or when the ranges are disjoint; it is
symmetric; and for two slices of the same length `n ≥ 1` it is true exactly when
the distance of the start addresses is above 0 and below `n`. -/
theorem inexactOverlap_characterisation (x y : Slice) :
    (inexactOverlap x y = true ↔
      x.len ≠ 0 ∧ y.len ≠ 0 ∧ x.ptr ≠ y.ptr ∧
        ∃ a, (x.ptr ≤ a ∧ a < x.ptr + x.len) ∧ (y.ptr ≤ a ∧ a < y.ptr + y.len)) ∧
    (inexactOverlap x y = true ↔
      x.len ≠ 0 ∧ y.len ≠ 0 ∧ x.ptr ≠ y.ptr ∧
        x.ptr ≤ y.ptr + (y.len - 1) ∧ y.ptr ≤ x.ptr + (x.len - 1)) ∧
    (x.len = 0 ∨ y.len = 0 ∨ x.ptr = y.ptr ∨
        (¬ ∃ a, (x.ptr ≤ a ∧ a < x.ptr + x.len) ∧ (y.ptr ≤ a ∧ a < y.ptr + y.len)) →
      inexactOverlap x y = false) ∧
    inexactOverlap x y = inexactOverlap y x ∧
    (x.len = y.len → 1 ≤ x.len →
      (inexactOverlap x y = true ↔
        0 < ((x.ptr : Int) - (y.ptr : Int)).natAbs ∧
          ((x.ptr : Int) - (y.ptr : Int)).natAbs < x.len)) := by
  have h1 := inexactOverlap_iff x y
  have h2 := inexactOverlap_iff y x
  have h3 := share_address_iff x y
  refine ⟨?_, h1, ?_, ?_, ?_⟩
  · rw [h1, h3]
    constructor
    · rintro ⟨a, b, c, d, e⟩
      exact ⟨a, b, c, a, b, d, e⟩
    · rintro ⟨a, b, c, _, _, d, e⟩
      exact ⟨a, b, c, d, e⟩
  · intro h
    rw [h3] at h
    rw [← Bool.not_eq_true, h1]
    omega
  · rw [Bool.eq_iff_iff, h1, h2]
    omega
  · intro hl hn
    rw [h1]
    omega

/-- C16 at two 4-byte slices two bytes apart, and its symmetry there. -/
theorem inexactOverlap_characterisation_witness :
    inexactOverlap ⟨0, 4, 4⟩ ⟨2, 4, 4⟩ = true ∧
    inexactOverlap ⟨0, 4, 4⟩ ⟨4, 4, 4⟩ = false ∧
    inexactOverlap ⟨0, 4, 4⟩ ⟨2, 4, 4⟩ = inexactOverlap ⟨2, 4, 4⟩ ⟨0, 4, 4⟩ :=
  ⟨((inexactOverlap_characterisation ⟨0, 4, 4⟩ ⟨2, 4, 4⟩).2.2.2.2 rfl (by decide)).mpr
      (by decide),
   (inexactOverlap_characterisation ⟨0, 4, 4⟩ ⟨4, 4, 4⟩).2.2.1
      (Or.inr (Or.inr (Or.inr (by
        rintro ⟨a, ⟨h1, h2⟩, h3, h4⟩
        simp only at h1 h2 h3 h4
        omega)))),
   (inexactOverlap_characterisation ⟨0, 4, 4⟩ ⟨2, 4, 4⟩).2.2.2.1⟩

/-- C17. Exact panic condition of `XORKeyStream`: for every state, source and
destination (a slice, so with its length within its capacity), the call panics
exactly when the source is non-empty and either the destination is shorter than the
source or the first `len(src)` bytes of the destination start at another address
than the source while sharing an address with it; and whenever it panics, the
table, both indices and the memory are as they were before the call. -/
theorem panic_condition (c : rc4Cipher) (mem : Mem) (dst src : Slice)
    (hcap : dst.len ≤ dst.cap) :
    ((XORKeyStream c mem dst src).isPanic = true ↔
      src.len ≠ 0 ∧ (dst.len < src.len ∨ PartialOverlap (dst.upTo src.len) src)) ∧
    ((XORKeyStream c mem dst src).isPanic = true →
      (XORKeyStream c mem dst src).cipher = c ∧ (XORKeyStream c mem dst src).mem = mem) := by
  refine ⟨?_, XORKeyStream_panic_unchanged c mem dst src⟩
  rw [XORKeyStream_isPanic_iff, inexactOverlap_iff_partialOverlap]
  constructor
  · rintro ⟨h0, h | h | h⟩
    · exact ⟨h0, Or.inl (by omega)⟩
    · exact ⟨h0, Or.inr h⟩
    · exact ⟨h0, Or.inl (by omega)⟩
  · rintro ⟨h0, h | h⟩
    · exact ⟨h0, Or.inr (Or.inr (by omega))⟩
    · exact ⟨h0, Or.inr (Or.inl h)⟩

/-- C17 at a destination shorter than the source, which panics with the state
unchanged, and at a disjoint destination of the same length, which does not. -/
theorem panic_condition_witness :
    ((XORKeyStream secretCipher (fun _ => 0) ⟨8, 2, 6⟩ ⟨0, 4, 4⟩).isPanic = true ∧
      (XORKeyStream secretCipher (fun _ => 0) ⟨8, 2, 6⟩ ⟨0, 4, 4⟩).cipher = secretCipher ∧
      (XORKeyStream secretCipher (fun _ => 0) ⟨8, 2, 6⟩ ⟨0, 4, 4⟩).mem = (fun _ => 0)) ∧
    ¬ ((XORKeyStream secretCipher (fun _ => 0) ⟨8, 4, 4⟩ ⟨0, 4, 4⟩).isPanic = true) := by
  have h₁ := panic_condition secretCipher (fun _ => 0) ⟨8, 2, 6⟩ ⟨0, 4, 4⟩ (by decide)
  have h₂ := panic_condition secretCipher (fun _ => 0) ⟨8, 4, 4⟩ ⟨0, 4, 4⟩ (by decide)
  have hp := h₁.1.mpr ⟨by decide, Or.inl (by decide)⟩
  refine ⟨⟨hp, h₁.2 hp⟩, ?_⟩
  rw [h₂.1]
  rintro ⟨_, h | ⟨_, a, ⟨h1, h2⟩, h3, h4⟩⟩
  · exact absurd h (by decide)
  · simp only [Slice.upTo] at h1 h2 h3 h4
    omega

/-- C15. Determinism: two keys of 1 to 256 bytes that are equal byte for byte make
`NewCipher` return states with identical tables and indices; and two runs of
successive accepted `XORKeyStream` calls from that state, in any memories and
buffers, that find the same source bytes call by call store the same bytes call by
call and end with identical tables and indices. -/
theorem determinism (key₁ key₂ : List Nat) (mem₁ mem₂ : Mem)
    (calls₁ calls₂ : List (Slice × Slice))
    (hk : 1 ≤ key₁.length ∧ key₁.length ≤ 256)
    (hlen : key₁.length = key₂.length)
    (hbytes : ∀ i, i < key₁.length → key₁.getD i 0 = key₂.getD i 0)
    (h₁ : ∀ p ∈ calls₁, AcceptedBuffers p.1 p.2)
    (h₂ : ∀ p ∈ calls₂, AcceptedBuffers p.1 p.2) :
    ∃ c, NewCipher key₁ = .ok c ∧ NewCipher key₂ = .ok c ∧
      ((callTrace c mem₁ calls₁).map Prod.fst = (callTrace c mem₂ calls₂).map Prod.fst →
        (callTrace c mem₁ calls₁).map Prod.snd = (callTrace c mem₂ calls₂).map Prod.snd ∧
        (xorCalls c mem₁ calls₁).cipher = (xorCalls c mem₂ calls₂).cipher) := by
  have hkey : key₁ = key₂ := by
    apply List.ext_getElem hlen
    intro i hi₁ hi₂
    have := hbytes i hi₁
    rwa [List.getD_eq_getElem _ _ hi₁, List.getD_eq_getElem _ _ hi₂] at this
  subst hkey
  exact ⟨_, NewCipher_ok key₁ hk, NewCipher_ok key₁ hk,
    callTrace_deterministic calls₁ calls₂ _ mem₁ mem₂ h₁ h₂⟩

/-- C15 at the key "SECRET": the text in two calls of 5 and 9 bytes from addresses
0..13 into addresses 14..27, and the same text, held at addresses 100..113 of
another memory, in two calls of 5 and 9 bytes in place. -/
theorem determinism_witness :
    ∃ c, NewCipher secretKey = .ok c ∧ NewCipher [83, 69, 67, 82, 69, 84] = .ok c ∧
      (callTrace c (fun a => testInput.getD a 0)
          [(⟨14, 5, 14⟩, ⟨0, 5, 14⟩), (⟨19, 9, 9⟩, ⟨5, 9, 9⟩)]).map Prod.snd
        = (callTrace c (fun a => testInput.getD (a - 100) 0)
          [(⟨100, 5, 14⟩, ⟨100, 5, 14⟩), (⟨105, 9, 9⟩, ⟨105, 9, 9⟩)]).map Prod.snd ∧
      (xorCalls c (fun a => testInput.getD a 0)
          [(⟨14, 5, 14⟩, ⟨0, 5, 14⟩), (⟨19, 9, 9⟩, ⟨5, 9, 9⟩)]).cipher
        = (xorCalls c (fun a => testInput.getD (a - 100) 0)
          [(⟨100, 5, 14⟩, ⟨100, 5, 14⟩), (⟨105, 9, 9⟩, ⟨105, 9, 9⟩)]).cipher := by
  obtain ⟨c, hc₁, hc₂, h⟩ := determinism secretKey [83, 69, 67, 82, 69, 84]
    (fun a => testInput.getD a 0) (fun a => testInput.getD (a - 100) 0)
    [(⟨14, 5, 14⟩, ⟨0, 5, 14⟩), (⟨19, 9, 9⟩, ⟨5, 9, 9⟩)]
    [(⟨100, 5, 14⟩, ⟨100, 5, 14⟩), (⟨105, 9, 9⟩, ⟨105, 9, 9⟩)]
    (by decide) (by decide) (by decide) (by decide) (by decide)
  have hc : c = secretCipher := by
    have := hc₁.symm.trans NewCipher_secretKey
    injection this
  subst hc
  exact ⟨secretCipher, hc₁, hc₂, h (by decide!)⟩

/-- C18. Keystream independent of the data: from every state, for two sources of
the same length `n` with disjoint destinations, `XORKeyStream` leaves the same
table and indices, the final `i` is `(i + n) mod 256`, and the output XORed bytewise
with the source is the same for both; and the output for any source is that source
XORed bytewise with the output for the all-zero source of the same length. -/
theorem keystream_independent_of_data (c : rc4Cipher) (mem₁ mem₂ mem₀ : Mem)
    (d₁ s₁ d₂ s₂ d₀ s₀ : Slice) (hi : c.i < 256)
    (hb₁ : DisjointBuffers d₁ s₁) (hb₂ : DisjointBuffers d₂ s₂) (hb₀ : DisjointBuffers d₀ s₀)
    (hl₂ : s₂.len = s₁.len) (hl₀ : s₀.len = s₁.len)
    (hz : s₀.bytes mem₀ = List.replicate s₀.len 0) :
    ∃ c₁ m₁ c₂ m₂ c₀ m₀,
      XORKeyStream c mem₁ d₁ s₁ = .done c₁ m₁ ∧
      XORKeyStream c mem₂ d₂ s₂ = .done c₂ m₂ ∧
      XORKeyStream c mem₀ d₀ s₀ = .done c₀ m₀ ∧
      c₁ = c₂ ∧ c₁.i = (c.i + s₁.len) % 256 ∧
      List.zipWith (fun x y => x ^^^ y) (m₁.bytes d₁.ptr s₁.len) (s₁.bytes mem₁)
        = List.zipWith (fun x y => x ^^^ y) (m₂.bytes d₂.ptr s₂.len) (s₂.bytes mem₂) ∧
      m₁.bytes d₁.ptr s₁.len
        = List.zipWith (fun x y => x ^^^ y) (s₁.bytes mem₁) (m₀.bytes d₀.ptr s₀.len) := by
  have hlen₁ : (s₁.bytes mem₁).length = s₁.len := Mem.bytes_length _ _ _
  have hlen₂ : (s₂.bytes mem₂).length = s₁.len := (Mem.bytes_length _ _ _).trans hl₂
  have ho : ∀ (mem : Mem) (d s : Slice),
      (mem.writeBytes d.ptr (xorBytes c (s.bytes mem)).2).bytes d.ptr s.len
        = (xorBytes c (s.bytes mem)).2 := by
    intro mem d s
    apply Mem.bytes_writeBytes_of_length
    rw [xorBytes_length, Slice.bytes, Mem.bytes_length]
  have hk : ∀ p : List Nat, p.length = s₁.len →
      List.zipWith (fun x y => x ^^^ y) (xorBytes c p).2 p
        = (xorBytes c (List.replicate s₁.len 0)).2 := by
    intro p hp
    rw [xorBytes_zeros c p, hp]
    exact zipWith_xor_cancel p _ (by rw [xorBytes_length, List.length_replicate, hp])
  refine ⟨_, _, _, _, _, _, XORKeyStream_eq c mem₁ d₁ s₁ (AcceptedBuffers.of_disjoint hb₁),
    XORKeyStream_eq c mem₂ d₂ s₂ (AcceptedBuffers.of_disjoint hb₂),
    XORKeyStream_eq c mem₀ d₀ s₀ (AcceptedBuffers.of_disjoint hb₀), ?_, ?_, ?_, ?_⟩
  · rw [xorBytes_zeros c (s₁.bytes mem₁), xorBytes_zeros c (s₂.bytes mem₂), hlen₁, hlen₂]
  · rw [xorBytes_index c _ hi, hlen₁]
  · rw [ho, ho, hk _ hlen₁, hk _ hlen₂]
  · rw [ho, ho, hz, hl₀]
    conv_lhs => rw [xorBytes_zeros c (s₁.bytes mem₁), hlen₁]

/-- C18 at the key "SECRET": the text, a second 14-byte source and an all-zero
14-byte source, each at addresses 0..13 of its memory, into addresses 14..27. -/
theorem keystream_independent_of_data_witness :
    ∃ c₁ m₁ c₂ m₂ c₀ m₀,
      XORKeyStream secretCipher (fun a => testInput.getD a 0) ⟨14, 14, 14⟩ ⟨0, 14, 14⟩
        = .done c₁ m₁ ∧
      XORKeyStream secretCipher (fun a => testExpect.getD a 0) ⟨14, 14, 14⟩ ⟨0, 14, 14⟩
        = .done c₂ m₂ ∧
      XORKeyStream secretCipher (fun _ => 0) ⟨14, 14, 14⟩ ⟨0, 14, 14⟩ = .done c₀ m₀ ∧
      c₁ = c₂ ∧ c₁.i = (secretCipher.i + 14) % 256 ∧
      List.zipWith (fun x y => x ^^^ y) (m₁.bytes 14 14)
          (Slice.bytes ⟨0, 14, 14⟩ (fun a => testInput.getD a 0))
        = List.zipWith (fun x y => x ^^^ y) (m₂.bytes 14 14)
          (Slice.bytes ⟨0, 14, 14⟩ (fun a => testExpect.getD a 0)) ∧
      m₁.bytes 14 14
        = List.zipWith (fun x y => x ^^^ y)
          (Slice.bytes ⟨0, 14, 14⟩ (fun a => testInput.getD a 0)) (m₀.bytes 14 14) :=
  keystream_independent_of_data secretCipher (fun a => testInput.getD a 0)
    (fun a => testExpect.getD a 0) (fun _ => 0)
    ⟨14, 14, 14⟩ ⟨0, 14, 14⟩ ⟨14, 14, 14⟩ ⟨0, 14, 14⟩ ⟨14, 14, 14⟩ ⟨0, 14, 14⟩
    (by decide) (by decide) (by decide) (by decide) rfl rfl (by decide)

/-- C19. After `Reset` the cipher passes data through unencrypted: for every state,
once `Reset` has been called, whatever calls follow it, every later `XORKeyStream`
call with a disjoint destination ends normally, writes output bytes equal to the
source bytes, keeps all 256 table entries 0 and `j` 0, and advances `i` by the
source length modulo 256. -/
theorem reset_passes_data_through (c₀ c : rc4Cipher) (mem₀ mem : Mem) (ops : List Op)
    (dst src : Slice) (hc₀ : c₀.s.length = 256)
    (hreach : runOps (Reset c₀) mem₀ ops = (c, mem)) (hb : DisjointBuffers dst src) :
    ∃ c' m', XORKeyStream c mem dst src = .done c' m' ∧
      m'.bytes dst.ptr src.len = src.bytes mem ∧
      c'.s = List.replicate 256 0 ∧ c'.j = 0 ∧ c'.i = (c.i + src.len) % 256 := by
  have hcl : Cleared c.s c.i c.j := by
    have := runOps_cleared ops (Reset c₀) mem₀ (Reset_cleared c₀ hc₀)
    rwa [hreach] at this
  obtain ⟨⟨⟨hl, hz⟩, _, hj⟩, hout⟩ := xorBytes_cleared c (src.bytes mem) hcl
  refine ⟨_, _, XORKeyStream_eq c mem dst src (AcceptedBuffers.of_disjoint hb), ?_, ?_, hj, ?_⟩
  · rw [hout]
    apply Mem.bytes_writeBytes_of_length
    rw [Slice.bytes, Mem.bytes_length]
  · exact List.eq_replicate_iff.mpr ⟨hl, hz⟩
  · rw [xorBytes_index c _ hcl.2.1, Slice.bytes, Mem.bytes_length]

/-- C19 at the cipher of the key "SECRET": `Reset`, then an in-place call on 5 bytes,
then the text from addresses 0..13 into addresses 14..27. -/
theorem reset_passes_data_through_witness :
    ∃ c' m',
      XORKeyStream
          (runOps (Reset secretCipher) (fun a => testInput.getD a 0)
            [Op.xorKeyStream ⟨30, 5, 5⟩ ⟨30, 5, 5⟩]).1
          (runOps (Reset secretCipher) (fun a => testInput.getD a 0)
            [Op.xorKeyStream ⟨30, 5, 5⟩ ⟨30, 5, 5⟩]).2
          ⟨14, 14, 14⟩ ⟨0, 14, 14⟩ = .done c' m' ∧
      m'.bytes 14 14 = Slice.bytes ⟨0, 14, 14⟩
        (runOps (Reset secretCipher) (fun a => testInput.getD a 0)
          [Op.xorKeyStream ⟨30, 5, 5⟩ ⟨30, 5, 5⟩]).2 ∧
      c'.s = List.replicate 256 0 ∧ c'.j = 0 ∧
      c'.i = ((runOps (Reset secretCipher) (fun a => testInput.getD a 0)
        [Op.xorKeyStream ⟨30, 5, 5⟩ ⟨30, 5, 5⟩]).1.i + 14) % 256 :=
  reset_passes_data_through secretCipher _ (fun a => testInput.getD a 0) _
    [Op.xorKeyStream ⟨30, 5, 5⟩ ⟨30, 5, 5⟩] ⟨14, 14, 14⟩ ⟨0, 14, 14⟩
    secretCipher_isPermutation.1 rfl (by decide)

/-- C20. Repeated keys are equivalent: for every key of length `k ≥ 1` and every
`m ≥ 1` with `m * k ≤ 256`, the key written `m` times in a row has length `m * k`,
and `NewCipher` returns for it the same table and indices as for the key itself, so
that every `XORKeyStream` call gives the same for both. -/
theorem repeated_key_equivalent (key : List Nat) (m : Nat)
    (hk : 1 ≤ key.length) (hm : 1 ≤ m) (hmk : m * key.length ≤ 256) :
    (repeatKey key m).length = m * key.length ∧
    ∃ c, NewCipher key = .ok c ∧ NewCipher (repeatKey key m) = .ok c := by
  have hlen := repeatKey_length key m
  have hk₁ : 1 ≤ key.length ∧ key.length ≤ 256 :=
    ⟨hk, le_trans (Nat.le_mul_of_pos_left _ hm) hmk⟩
  have hk₂ : 1 ≤ (repeatKey key m).length ∧ (repeatKey key m).length ≤ 256 := by
    rw [hlen]
    exact ⟨Nat.mul_pos hm hk, hmk⟩
  refine ⟨hlen, _, NewCipher_ok key hk₁, ?_⟩
  rw [NewCipher_ok _ hk₂]
  have : ksaLoop (repeatKey key m) initTable = ksaLoop key initTable := by
    unfold ksaLoop
    rw [ksaStep_repeatKey key m hk hm]
  rw [this]

/-- C20 at the key "SECRET" written twice. -/
theorem repeated_key_equivalent_witness :
    (repeatKey secretKey 2).length = 2 * secretKey.length ∧
    ∃ c, NewCipher secretKey = .ok c ∧ NewCipher (repeatKey secretKey 2) = .ok c :=
  repeated_key_equivalent secretKey 2 (by decide) (by decide) (by decide)

end RC4
